import Mathlib

/-!
Verification development for the callout-parsing and markdown-composition
pipeline of a markdown-to-PDF reporting service.

Text is modelled as `List Char` (one entry per code point).  The JavaScript
regular expressions used by the source are embedded as explicit backtracking
scanners with the exact semantics of the originals:

* `extractCallouts` embeds the global multiline scan of
  `^:::(\w+)\s+(.*?)\n([\s\S]*?)^:::$`,
* `findCodeFenceRanges` embeds the scan of "three backticks at the start of
  a line, lazily up to the next line consisting of exactly three backticks",
* `processCallouts`, `renderCallout`, `slugify` and the diagram substitution
  of `renderContent` are direct translations of the source functions.
-/

namespace PdfReporter

set_option maxRecDepth 100000
set_option maxHeartbeats 4000000

/-- Conversion from string literals to the character-list text model. -/
def str (s : String) : List Char := s.toList

-- ---------------------------------------------------------------------------
-- Character classes (JavaScript regex semantics)
-- ---------------------------------------------------------------------------

/-- JavaScript regex `\w`: ASCII letters, digits and underscore. -/
def isWordChar (c : Char) : Bool :=
  ('a' ≤ c && c ≤ 'z') || ('A' ≤ c && c ≤ 'Z') || ('0' ≤ c && c ≤ '9') || c = '_'

/-- JavaScript line terminators, as recognised by multiline `^` and `$`. -/
def isLineTerm (c : Char) : Bool :=
  c = '\n' || c = '\r' || c = '\u2028' || c = '\u2029'

/-- JavaScript regex `\s` (also the character class trimmed by `String.trim`). -/
def isJsWS (c : Char) : Bool :=
  c = ' ' || c = '\t' || c = '\n' || c = '\r' || c = '\x0b' || c = '\x0c' ||
  c = '\u00a0' || c = '\u1680' || ('\u2000' ≤ c && c ≤ '\u200a') ||
  c = '\u2028' || c = '\u2029' || c = '\u202f' || c = '\u205f' ||
  c = '\u3000' || c = '\ufeff'

-- ---------------------------------------------------------------------------
-- Text primitives
-- ---------------------------------------------------------------------------

/-- Optional character at index `i`. -/
def charAt (s : List Char) (i : Nat) : Option Char := s[i]?

/-- Whether `pat` occurs verbatim at position `i` of `s`. -/
def prefixAt (s : List Char) (i : Nat) (pat : List Char) : Bool :=
  (s.drop i).take pat.length == pat

/-- Multiline `^`: position `0`, or a position right after a line terminator. -/
def isLineStart (s : List Char) (i : Nat) : Bool :=
  i == 0 ||
    (match charAt s (i - 1) with
     | some c => isLineTerm c
     | none => false)

/-- Multiline `$` at position `x`: end of text, or a line terminator at `x`. -/
def endOfLine (s : List Char) (x : Nat) : Bool :=
  x == s.length ||
    (match charAt s x with
     | some c => isLineTerm c
     | none => false)

/-- The substring of `s` from position `a` (inclusive) to `b` (exclusive). -/
def seg (s : List Char) (a b : Nat) : List Char := (s.drop a).take (b - a)

/-- Length of the maximal run of characters satisfying `p` at the head. -/
def runLen (p : Char → Bool) : List Char → Nat
  | [] => 0
  | c :: r => if p c then runLen p r + 1 else 0

/-- Length of the maximal run of characters satisfying `p` starting at `i`. -/
def runLenAt (p : Char → Bool) (s : List Char) (i : Nat) : Nat :=
  runLen p (s.drop i)

/-- Fuelled scan for the first index `≥ i` whose character satisfies `p`. -/
def findIdxFromFuel (p : Char → Bool) (s : List Char) : Nat → Nat → Option Nat
  | 0, _ => none
  | f + 1, i =>
    match charAt s i with
    | none => none
    | some c => if p c then some i else findIdxFromFuel p s f (i + 1)

/-- First index `≥ i` whose character satisfies `p`, if any. -/
def findIdxFrom (p : Char → Bool) (s : List Char) (i : Nat) : Option Nat :=
  findIdxFromFuel p s (s.length + 1) i

/-- Fuelled scan for the first line consisting of `pat` alone, at index `≥ q`:
the multiline regex fragment anchored as start-of-line, `pat`, end-of-line. -/
def findBareLineFuel (pat : List Char) (s : List Char) : Nat → Nat → Option Nat
  | 0, _ => none
  | f + 1, q =>
    if q > s.length then none
    else if isLineStart s q && prefixAt s q pat && endOfLine s (q + pat.length) then some q
    else findBareLineFuel pat s f (q + 1)

/-- First position `≥ q` that starts a line consisting exactly of `pat`. -/
def findBareLine (pat : List Char) (s : List Char) (q : Nat) : Option Nat :=
  findBareLineFuel pat s (s.length + 1) q

/-- Leftmost-occurrence search over the remaining suffix, carrying the
absolute position of the suffix head (JavaScript `String.indexOf` scan). -/
def indexOfAux (pat : List Char) : List Char → Nat → Option Nat
  | [], i => if ([] : List Char).take pat.length == pat then some i else none
  | c :: r, i =>
    if (c :: r).take pat.length == pat then some i else indexOfAux pat r (i + 1)

/-- Index of the first occurrence of `pat` in `s` (JavaScript `indexOf`). -/
def indexOf (s pat : List Char) : Option Nat :=
  indexOfAux pat s 0

/-- JavaScript `String.trim`: drop leading and trailing whitespace. -/
def trim (s : List Char) : List Char :=
  ((s.dropWhile isJsWS).reverse.dropWhile isJsWS).reverse

/-- Number of non-overlapping occurrences of `pat`, scanning left to right. -/
def countOccurFuel (pat : List Char) : Nat → List Char → Nat
  | 0, _ => 0
  | f + 1, s =>
    match indexOf s pat with
    | none => 0
    | some i => countOccurFuel pat f (s.drop (i + pat.length)) + 1

/-- Number of non-overlapping left-to-right occurrences of `pat` in `s`. -/
def countOccur (pat s : List Char) : Nat := countOccurFuel pat (s.length + 1) s

/-- ECMAScript GetSubstitution applied to a string replacement: inside the
replacement text, `$$` yields a dollar sign, `$&` the matched text, a dollar
sign followed by a backquote the portion of the original string before the
match, and a dollar sign followed by a quote the portion after the match; any
other use of `$` is literal. -/
def getSubstitution (matched before after : List Char) : List Char → List Char
  | [] => []
  | c :: r =>
    if c = '$' then
      match r with
      | [] => ['$']
      | d :: r2 =>
        if d = '$' then '$' :: getSubstitution matched before after r2
        else if d = '&' then matched ++ getSubstitution matched before after r2
        else if d = '\u0060' then before ++ getSubstitution matched before after r2
        else if d = '\'' then after ++ getSubstitution matched before after r2
        else '$' :: getSubstitution matched before after (d :: r2)
    else c :: getSubstitution matched before after r

/-- Fuelled JavaScript `String.replaceAll`: replace each leftmost occurrence
with the GetSubstitution-processed replacement and resume scanning after it;
`pre` is the already-scanned prefix of the original string, so that the
before/after portions are taken with respect to the original string. -/
def replaceAllSubstAux (pat rep : List Char) : Nat → List Char → List Char → List Char
  | 0, _, s => s
  | f + 1, pre, s =>
    match indexOf s pat with
    | none => s
    | some i =>
      s.take i ++
        getSubstitution pat (pre ++ s.take i) (s.drop (i + pat.length)) rep ++
        replaceAllSubstAux pat rep f (pre ++ s.take (i + pat.length))
          (s.drop (i + pat.length))

/-- JavaScript `String.replaceAll s pat rep` with a string replacement. -/
def replaceAll (s pat rep : List Char) : List Char :=
  replaceAllSubstAux pat rep (s.length + 1) [] s

/-- Fuelled split on the leftmost non-overlapping occurrences of `pat`. -/
def splitOnFuel (pat : List Char) : Nat → List Char → List (List Char)
  | 0, s => [s]
  | f + 1, s =>
    match indexOf s pat with
    | none => [s]
    | some i => s.take i :: splitOnFuel pat f (s.drop (i + pat.length))

/-- Split `s` on the leftmost non-overlapping occurrences of `pat`. -/
def splitOnL (pat s : List Char) : List (List Char) :=
  splitOnFuel pat (s.length + 1) s

/-- Join a list of pieces with a separator between consecutive pieces. -/
def intercal (sep : List Char) : List (List Char) → List Char
  | [] => []
  | [x] => x
  | x :: y :: r => x ++ sep ++ intercal sep (y :: r)

/-- Occurrence of `mid` somewhere inside `whole`. -/
def containsSeg (mid whole : List Char) : Prop :=
  ∃ u v, whole = u ++ mid ++ v

-- ---------------------------------------------------------------------------
-- Callout data model and style registry (types.ts)
-- ---------------------------------------------------------------------------

/-- Visual definition of one callout type, from `CALLOUT_TYPES` in types.ts. -/
structure CalloutDef where
  emoji : List Char
  borderColor : List Char
  backgroundColor : List Char
  titleColor : List Char
  bodyColor : List Char
deriving DecidableEq

/-- One parsed callout occurrence (`CalloutMatch` in markdown-renderer.ts). -/
structure CalloutMatch where
  fullMatch : List Char
  type : List Char
  title : List Char
  body : List Char
deriving DecidableEq

def ideaDef : CalloutDef :=
  ⟨str "💡", str "#F59E0B", str "#FFFBEB", str "#D97706", str "#92400E"⟩

def automationDef : CalloutDef :=
  ⟨str "🤖", str "#14B8A6", str "#F0FDFA", str "#0F766E", str "#134E4A"⟩

def warningDef : CalloutDef :=
  ⟨str "⚠️", str "#F97316", str "#FFF7ED", str "#EA580C", str "#9A3412"⟩

def successDef : CalloutDef :=
  ⟨str "✅", str "#22C55E", str "#F0FDF4", str "#16A34A", str "#166534"⟩

def infoDef : CalloutDef :=
  ⟨str "ℹ️", str "#3B82F6", str "#EFF6FF", str "#2563EB", str "#1E40AF"⟩

def criticalDef : CalloutDef :=
  ⟨str "🔴", str "#EF4444", str "#FEF2F2", str "#DC2626", str "#991B1B"⟩

def businessDef : CalloutDef :=
  ⟨str "💰", str "#10B981", str "#ECFDF5", str "#059669", str "#065F46"⟩

def expertDef : CalloutDef :=
  ⟨str "🔍", str "#8B5CF6", str "#F5F3FF", str "#7C3AED", str "#5B21B6"⟩

def tipDef : CalloutDef :=
  ⟨str "💎", str "#06B6D4", str "#ECFEFF", str "#0891B2", str "#155E75"⟩

/-- The nine-entry callout style registry `CALLOUT_TYPES`. -/
def CALLOUT_TYPES : List (List Char × CalloutDef) :=
  [(str "idea", ideaDef),
   (str "automation", automationDef),
   (str "warning", warningDef),
   (str "success", successDef),
   (str "info", infoDef),
   (str "critical", criticalDef),
   (str "business", businessDef),
   (str "expert", expertDef),
   (str "tip", tipDef)]

/-- Association-list lookup of the registry's own properties. -/
def lookupDef : List (List Char × CalloutDef) → List Char → Option CalloutDef
  | [], _ => none
  | (k, d) :: r, t => if k = t then some d else lookupDef r t

/-- Property names the registry object literal inherits from
`Object.prototype`; bracket access with one of these names yields the
inherited function or object, which is truthy, so `??` does not fall back. -/
def OBJECT_PROTOTYPE_KEYS : List (List Char) :=
  [str "constructor", str "hasOwnProperty", str "isPrototypeOf",
   str "propertyIsEnumerable", str "toLocaleString", str "toString",
   str "valueOf", str "__proto__", str "__defineGetter__",
   str "__defineSetter__", str "__lookupGetter__", str "__lookupSetter__"]

/-- The style record observed after destructuring a non-registry object (an
inherited `Object.prototype` member): every field is `undefined`, and each
template interpolation renders it as the string `undefined`. -/
def undefinedDef : CalloutDef :=
  ⟨str "undefined", str "undefined", str "undefined", str "undefined",
   str "undefined"⟩

/-- Style lookup as the source observes it: `CALLOUT_TYPES[type] ?? info`
followed by destructuring.  An own property yields its registry entry; a name
inherited from `Object.prototype` yields a truthy non-registry value whose
destructured style fields are all `undefined`; only a genuinely absent
property makes `??` fall back to the `info` entry. -/
def lookupD (t : List Char) : CalloutDef :=
  match lookupDef CALLOUT_TYPES t with
  | some d => d
  | none => if t ∈ OBJECT_PROTOTYPE_KEYS then undefinedDef else infoDef

-- ---------------------------------------------------------------------------
-- Callout extraction: ^:::(\w+)\s+(.*?)\n([\s\S]*?)^:::$  (flags g, m)
-- ---------------------------------------------------------------------------

/-- The tail of a callout match attempt once the whitespace-run length `m` is
fixed: `p = k + m` is where the lazy title starts.  The title runs to the
first line terminator at or after `p`, which the pattern's literal newline
requires to be a real `'\n'`; the lazy body then runs to the first line that
consists exactly of `:::`.  Returns the match and its end position. -/
def tryTail (s : List Char) (i j k m : Nat) : Option (CalloutMatch × Nat) :=
  let p := k + m
  match findIdxFrom isLineTerm s p with
  | none => none
  | some n =>
    if charAt s n = some '\n' then
      match findBareLine (str ":::") s (n + 1) with
      | none => none
      | some q =>
        some ({ fullMatch := seg s i (q + 3), type := seg s j k,
                title := seg s p n, body := trim (seg s (n + 1) q) }, q + 3)
    else none

/-- Greedy `\s+` backtracking: try the whitespace-run lengths `m, m-1, ..., 1`
in that order and return the first tail that completes. -/
def tryWsBacktrack (s : List Char) (i j k : Nat) : Nat → Option (CalloutMatch × Nat)
  | 0 => none
  | m + 1 =>
    match tryTail s i j k (m + 1) with
    | some r => some r
    | none => tryWsBacktrack s i j k m

/-- Attempt to match one callout starting at position `i`: line start, `:::`,
a nonempty `\w+` type token, then a nonempty `\s+` separator (backtracked
greedily), then the lazy title, newline, lazy body and the bare `:::` line. -/
def tryCallout (s : List Char) (i : Nat) : Option (CalloutMatch × Nat) :=
  if isLineStart s i && prefixAt s i (str ":::") then
    let j := i + 3
    let t := runLenAt isWordChar s j
    if t = 0 then none
    else
      let k := j + t
      let w := runLenAt isJsWS s k
      if w = 0 then none else tryWsBacktrack s i j k w
  else none

/-- Fuelled global scan: try every position from `i` upward (only line starts
can succeed) and resume after the end of each successful match, exactly as a
JavaScript `exec` loop with the `g` flag advances `lastIndex`. -/
def scanCallouts (s : List Char) : Nat → Nat → List CalloutMatch
  | 0, _ => []
  | f + 1, i =>
    if i > s.length then []
    else
      match tryCallout s i with
      | some (m, e) => m :: scanCallouts s f e
      | none => scanCallouts s f (i + 1)

/-- Parse all callout blocks from markdown text (source `extractCallouts`). -/
def extractCallouts (s : List Char) : List CalloutMatch :=
  scanCallouts s (s.length + 1) 0

-- ---------------------------------------------------------------------------
-- Callout rendering (source `renderCallout`)
-- ---------------------------------------------------------------------------

/-- Container inline style: the six fragments joined with a semicolon-space. -/
def containerStyle (d : CalloutDef) : List Char :=
  str "border-left: 4px solid " ++ d.borderColor ++
  str "; background: " ++ d.backgroundColor ++
  str "; padding: 16px 20px; margin: 20px 0; border-radius: 8px; page-break-inside: avoid"

/-- Title inline style. -/
def titleStyle (d : CalloutDef) : List Char :=
  str "font-weight: 700; font-size: 15px; color: " ++ d.titleColor ++
  str "; margin-bottom: 8px"

/-- Body inline style. -/
def bodyStyle (d : CalloutDef) : List Char :=
  str "color: " ++ d.bodyColor ++ str "; font-size: 14px; line-height: 1.6"

/-- The fragment built before the conditional body block: the container open
tag, the title block (icon glyph, one space, title text) and the title close. -/
def calloutHead (d : CalloutDef) (m : CalloutMatch) : List Char :=
  str "<div class=\"callout callout-" ++ m.type ++ str "\" style=\"" ++
    containerStyle d ++ str "\">" ++
  (str "<div class=\"callout-title\" style=\"" ++ titleStyle d ++ str "\">") ++
  (str "<span class=\"callout-icon\">" ++ d.emoji ++ str "</span> " ++ m.title) ++
  str "</div>"

/-- The body sub-element emitted when the match body is nonempty. -/
def calloutBodyDiv (d : CalloutDef) (bodyHtml : List Char) : List Char :=
  str "<div class=\"callout-body\" style=\"" ++ bodyStyle d ++ str "\">" ++
    bodyHtml ++ str "</div>"

/-- Assemble the callout fragment for a given style definition, appending the
body sub-element exactly when the body is nonempty, then the container close. -/
def buildCallout (d : CalloutDef) (m : CalloutMatch) (mdR : List Char → List Char) : List Char :=
  calloutHead d m ++
  (if m.body.isEmpty then [] else calloutBodyDiv d (mdR m.body)) ++
  str "</div>"

/-- Generate the HTML fragment for a single callout (source `renderCallout`).
The style definition is looked up from the registry with fallback to `info`;
the body markdown is rendered by the supplied markdown engine `mdR` (the
configured marked instance), and is emitted only when the body is nonempty. -/
def renderCallout (m : CalloutMatch) (mdR : List Char → List Char) : List Char :=
  buildCallout (lookupD m.type) m mdR

/-- Count of opening element tags in an HTML fragment: a `<` not followed by
`/` starts an opening tag. -/
def openTags : List Char → Nat
  | [] => 0
  | c :: r => (if c = '<' && r.head? != some '/' then 1 else 0) + openTags r

/-- Count of closing element tags in an HTML fragment: a `<` followed by `/`
starts a closing tag. -/
def closeTags : List Char → Nat
  | [] => 0
  | c :: r => (if c = '<' && r.head? == some '/' then 1 else 0) + closeTags r

-- ---------------------------------------------------------------------------
-- Code-fence scanning: ^```[\s\S]*?^```$  (flags g, m)
-- ---------------------------------------------------------------------------

/-- A half-open code-fence range of the original text. -/
structure FenceRange where
  start : Nat
  stop : Nat
deriving DecidableEq

/-- Attempt to match one fenced code block starting at `i`: line start and
three backticks, then lazily up to the first following line that consists of
exactly three backticks.  Returns the end position of the match. -/
def tryFence (s : List Char) (i : Nat) : Option Nat :=
  if isLineStart s i && prefixAt s i (str "```") then
    match findBareLine (str "```") s (i + 3) with
    | none => none
    | some q => some (q + 3)
  else none

/-- Fuelled global scan for fenced code blocks, resuming after each match. -/
def scanFences (s : List Char) : Nat → Nat → List FenceRange
  | 0, _ => []
  | f + 1, i =>
    if i > s.length then []
    else
      match tryFence s i with
      | some e => ⟨i, e⟩ :: scanFences s f e
      | none => scanFences s f (i + 1)

/-- All top-level code-fence ranges of the text, in order of appearance. -/
def findCodeFenceRanges (s : List Char) : List FenceRange :=
  scanFences s (s.length + 1) 0

/-- Whether position `pos` lies inside any of the given ranges
(`pos >= range.start && pos < range.end` in the source). -/
def isInCodeBlock (ranges : List FenceRange) (pos : Nat) : Bool :=
  ranges.any fun r => decide (r.start ≤ pos) && decide (pos < r.stop)

-- ---------------------------------------------------------------------------
-- Callout pipeline (source `processCallouts`)
-- ---------------------------------------------------------------------------

/-- The matches `processCallouts` retains: those whose `fullMatch` is found in
the original text (first occurrence) at a position outside every code fence. -/
def calloutsToProcess (s : List Char) : List CalloutMatch :=
  (extractCallouts s).filter fun c =>
    match indexOf s c.fullMatch with
    | some idx => !(isInCodeBlock (findCodeFenceRanges s) idx)
    | none => false

/-- One substitution step: find the first occurrence of the match's text in
the current result and splice the rendered HTML over it. -/
def substituteCallout (mdR : List Char → List Char) (result : List Char)
    (c : CalloutMatch) : List Char :=
  match indexOf result c.fullMatch with
  | some idx =>
    result.take idx ++ renderCallout c mdR ++ result.drop (idx + c.fullMatch.length)
  | none => result

/-- Process callouts in markdown text (source `processCallouts`): compute the
fence ranges and matches over the original text, keep the matches outside
fences, then substitute them in reverse order of appearance. -/
def processCallouts (mdR : List Char → List Char) (markdown : List Char) : List Char :=
  (calloutsToProcess markdown).reverse.foldl (substituteCallout mdR) markdown

-- ---------------------------------------------------------------------------
-- Heading slugs (source `slugify`)
-- ---------------------------------------------------------------------------

/-- ASCII lowercasing of one character, as applied to the slug alphabet. -/
def lowerChar (c : Char) : Char := if 'A' ≤ c && c ≤ 'Z' then c.toLower else c

/-- Replace every maximal run of characters matched by `p` with a single
replacement character; the boolean records whether we are inside a run. -/
def collapseRuns (p : Char → Bool) (rep : Char) : Bool → List Char → List Char
  | _, [] => []
  | inRun, c :: r =>
    if p c then (if inRun then [] else [rep]) ++ collapseRuns p rep true r
    else c :: collapseRuns p rep false r

/-- Strip one hyphen from the front of the list, if present. -/
def stripLeadHyphen (s : List Char) : List Char :=
  match s with
  | [] => []
  | c :: r => if c = '-' then r else c :: r

/-- Strip one leading and one trailing hyphen (`replace(/^-|-$/g, '')`). -/
def stripEdgeHyphens (s : List Char) : List Char :=
  (stripLeadHyphen (stripLeadHyphen s).reverse).reverse

/-- Two adjacent characters are not both hyphens. -/
def noHH (a b : Char) : Prop := ¬(a = '-' ∧ b = '-')

/-- Convert heading text to a URL-friendly slug (source `slugify`): lowercase,
remove every character that is not a word character, whitespace or hyphen,
collapse whitespace runs to `-`, collapse hyphen runs to `-`, then strip one
leading and one trailing hyphen. -/
def slugify (s : List Char) : List Char :=
  stripEdgeHyphens
    (collapseRuns (fun c => c = '-') '-' false
      (collapseRuns isJsWS '-' false
        ((s.map lowerChar).filter fun c => isWordChar c || isJsWS c || c = '-')))

-- ---------------------------------------------------------------------------
-- Diagram substitution (source `renderContent`)
-- ---------------------------------------------------------------------------

/-- One pre-rendered diagram handed to `render_content`. -/
structure Diagram where
  name : List Char
  svg : List Char

/-- The literal placeholder token for a diagram name. -/
def placeholderFor (name : List Char) : List Char :=
  str "\x7b\x7bdiagram:" ++ name ++ str "\x7d\x7d"

/-- The two-level wrapper markup embedding an SVG fragment. -/
def diagramWrapper (svg : List Char) : List Char :=
  str "<div class=\"diagram-container\"><div class=\"diagram-svg\">" ++ svg ++
  str "</div></div>"

/-- The diagram-substitution step of `renderContent`: when a diagram list is
supplied, replace all occurrences of each diagram's placeholder. -/
def substituteDiagrams (html : List Char) (diagrams : Option (List Diagram)) : List Char :=
  match diagrams with
  | none => html
  | some ds =>
    ds.foldl (fun h d => replaceAll h (placeholderFor d.name) (diagramWrapper d.svg)) html

/-- The `render_content` operation over an abstract markdown engine `render`:
render the markdown, then substitute diagram placeholders. -/
def renderContent (render : List Char → List Char) (markdown : List Char)
    (diagrams : Option (List Diagram)) : List Char :=
  substituteDiagrams (render markdown) diagrams

-- ---------------------------------------------------------------------------
-- Generic lemmas about the fuelled scanners
-- ---------------------------------------------------------------------------

theorem findBareLineFuel_ge (pat s : List Char) :
    ∀ f q r, findBareLineFuel pat s f q = some r → q ≤ r := by
  intro f
  induction f with
  | zero => intro q r h; simp [findBareLineFuel] at h
  | succ f ih =>
    intro q r h
    simp only [findBareLineFuel] at h
    by_cases hq : q > s.length
    · rw [if_pos hq] at h; cases h
    · rw [if_neg hq] at h
      by_cases hc : (isLineStart s q && prefixAt s q pat && endOfLine s (q + pat.length)) = true
      · rw [if_pos hc] at h; injection h with h; omega
      · rw [if_neg hc] at h
        have := ih (q + 1) r h
        omega

theorem indexOfAux_spec (pat : List Char) :
    ∀ suf i r, indexOfAux pat suf i = some r →
      ∃ d, r = i + d ∧ prefixAt suf d pat = true ∧
        ∀ e, e < d → prefixAt suf e pat = false := by
  intro suf
  induction suf with
  | nil =>
    intro i r h
    simp only [indexOfAux] at h
    by_cases hc : (([] : List Char).take pat.length == pat) = true
    · rw [if_pos hc] at h
      injection h with h
      exact ⟨0, by omega, hc, fun e he => by omega⟩
    · rw [if_neg hc] at h; cases h
  | cons c rest ih =>
    intro i r h
    simp only [indexOfAux] at h
    by_cases hc : ((c :: rest).take pat.length == pat) = true
    · rw [if_pos hc] at h
      injection h with h
      exact ⟨0, by omega, hc, fun e he => by omega⟩
    · rw [if_neg hc] at h
      obtain ⟨d, hd, hp, hfirst⟩ := ih (i + 1) r h
      refine ⟨d + 1, by omega, ?_, ?_⟩
      · rw [prefixAt, List.drop_succ_cons]
        exact hp
      · intro e he
        cases e with
        | zero => exact eq_false_of_ne_true hc
        | succ e =>
          rw [prefixAt, List.drop_succ_cons]
          exact hfirst e (by omega)

theorem indexOf_first (s pat : List Char) (r : Nat) (h : indexOf s pat = some r) :
    prefixAt s r pat = true ∧ ∀ j, j < r → prefixAt s j pat = false := by
  obtain ⟨d, hd, hp, hfirst⟩ := indexOfAux_spec pat s 0 r h
  have hrd : r = d := by omega
  subst hrd
  exact ⟨hp, hfirst⟩

-- ---------------------------------------------------------------------------
-- C1: pass-through on inputs with no `:::`-anchored line
-- ---------------------------------------------------------------------------

theorem tryCallout_none_of_no_anchor (s : List Char) (i : Nat)
    (h : (isLineStart s i && prefixAt s i (str ":::")) = false) :
    tryCallout s i = none := by
  simp only [tryCallout, h, Bool.false_eq_true, if_false]

theorem scanCallouts_nil (s : List Char)
    (h : ∀ i, i ≤ s.length → isLineStart s i = true → prefixAt s i (str ":::") = false) :
    ∀ f i, scanCallouts s f i = [] := by
  intro f
  induction f with
  | zero => intro i; simp [scanCallouts]
  | succ f ih =>
    intro i
    simp only [scanCallouts]
    by_cases hq : i > s.length
    · rw [if_pos hq]
    · rw [if_neg hq]
      have hnone : tryCallout s i = none := by
        apply tryCallout_none_of_no_anchor
        by_cases hls : isLineStart s i = true
        · simp [hls, h i (Nat.le_of_not_lt hq) hls]
        · simp [eq_false_of_ne_true hls]
      rw [hnone, ih]

/-- C1.  For every input string with no `:::`-anchored line (no position at a
line start where the three characters `:::` follow, anywhere in the text),
`processCallouts` returns the input unchanged, byte for byte, whatever the
underlying markdown engine is. -/
theorem processCallouts_passthrough (mdR : List Char → List Char) (x : List Char)
    (h : ∀ i, i ≤ x.length → isLineStart x i = true → prefixAt x i (str ":::") = false) :
    processCallouts mdR x = x := by
  have hext : extractCallouts x = [] := scanCallouts_nil x h (x.length + 1) 0
  simp [processCallouts, calloutsToProcess, hext]

/-- C1 witness: a text with prose, a fenced code block and a mid-line `:::`
sequence that contains no `:::`-anchored line passes through unchanged. -/
theorem processCallouts_passthrough_witness :
    processCallouts (fun b => str "<p>" ++ b ++ str "</p>\n")
      (str "hello\nworld ::: mid\n```\ncode\n```") =
      str "hello\nworld ::: mid\n```\ncode\n```" :=
  processCallouts_passthrough _ _ (by decide)

-- ---------------------------------------------------------------------------
-- C4: invariants of the computed code-fence ranges
-- ---------------------------------------------------------------------------

theorem tryFence_gt (s : List Char) (i e : Nat) (h : tryFence s i = some e) : i < e := by
  simp only [tryFence] at h
  by_cases hc : (isLineStart s i && prefixAt s i (str "```")) = true
  · rw [if_pos hc] at h
    cases hfb : findBareLine (str "```") s (i + 3) with
    | none => rw [hfb] at h; cases h
    | some q =>
      rw [hfb] at h
      injection h with h
      have := findBareLineFuel_ge (str "```") s (s.length + 1) (i + 3) q hfb
      omega
  · rw [if_neg hc] at h; cases h

theorem scanFences_mem (s : List Char) :
    ∀ f i r, r ∈ scanFences s f i → i ≤ r.start ∧ r.start < r.stop := by
  intro f
  induction f with
  | zero => intro i r h; simp [scanFences] at h
  | succ f ih =>
    intro i r h
    simp only [scanFences] at h
    by_cases hq : i > s.length
    · rw [if_pos hq] at h; simp at h
    · rw [if_neg hq] at h
      cases ht : tryFence s i with
      | none =>
        rw [ht] at h
        have := ih (i + 1) r h
        omega
      | some e =>
        rw [ht] at h
        rcases List.mem_cons.mp h with rfl | htail
        · exact ⟨Nat.le_refl _, tryFence_gt s i e ht⟩
        · have h2 := ih e r htail
          have h3 := tryFence_gt s i e ht
          omega

theorem scanFences_pairwise (s : List Char) :
    ∀ f i, List.Pairwise (fun a b : FenceRange => a.stop ≤ b.start ∧ a.start < b.start)
      (scanFences s f i) := by
  intro f
  induction f with
  | zero => intro i; simp [scanFences]
  | succ f ih =>
    intro i
    simp only [scanFences]
    by_cases hq : i > s.length
    · rw [if_pos hq]; exact List.Pairwise.nil
    · rw [if_neg hq]
      cases ht : tryFence s i with
      | none => exact ih (i + 1)
      | some e =>
        refine List.pairwise_cons.mpr ⟨fun r hr => ?_, ih e⟩
        have h2 := scanFences_mem s f e r hr
        have h3 := tryFence_gt s i e ht
        exact ⟨show e ≤ r.start by omega, show i < r.start by omega⟩

/-- C4.  The code-fence ranges computed inside `processCallouts` satisfy the
stated invariant: every range has `start < end`; the ranges are pairwise
non-overlapping and listed in order of appearance (each range ends no later
than the next begins, and start offsets strictly increase); and a position
`p` counts as inside a range exactly when `start ≤ p < end`. -/
theorem fenceRanges_invariant (s : List Char) :
    (∀ r ∈ findCodeFenceRanges s, r.start < r.stop) ∧
    List.Pairwise (fun a b : FenceRange => a.stop ≤ b.start ∧ a.start < b.start)
      (findCodeFenceRanges s) ∧
    (∀ p, isInCodeBlock (findCodeFenceRanges s) p = true ↔
      ∃ r ∈ findCodeFenceRanges s, r.start ≤ p ∧ p < r.stop) := by
  refine ⟨fun r hr => (scanFences_mem s (s.length + 1) 0 r hr).2,
    scanFences_pairwise s (s.length + 1) 0, fun p => ?_⟩
  simp [isInCodeBlock, List.any_eq_true]

-- ---------------------------------------------------------------------------
-- C3: unknown-type fallback in rendering
-- ---------------------------------------------------------------------------

theorem lookupDef_eq_none (reg : List (List Char × CalloutDef)) (t : List Char)
    (h : t ∉ reg.map Prod.fst) : lookupDef reg t = none := by
  induction reg with
  | nil => rfl
  | cons kv r ih =>
    simp only [List.map_cons, List.mem_cons] at h
    push_neg at h
    simp only [lookupDef]
    rw [if_neg (fun he => h.1 he.symm), ih h.2]

/-- C3 counterexample.  The type token `constructor` is extractable and is
not one of the nine recognized names, yet the source's `CALLOUT_TYPES[type]`
is a property access that walks the prototype chain: `constructor` names the
inherited, truthy `Object` function, so `??` never falls back to `info` and
destructuring yields `undefined` style fields.  The rendered fragment
contains none of `info`'s emoji, border color or background color; it carries
the literal `undefined` styles instead, with CSS class built from the
original token. -/
theorem renderCallout_prototype_cex :
    extractCallouts (str ":::constructor T\nB\n:::") =
      [⟨str ":::constructor T\nB\n:::", str "constructor", str "T", str "B"⟩] ∧
    (str "constructor") ∉ CALLOUT_TYPES.map Prod.fst ∧
    lookupD (str "constructor") ≠ infoDef ∧
    countOccur (str "ℹ️")
      (renderCallout ⟨str ":::constructor T\nB\n:::", str "constructor",
        str "T", str "B"⟩ (fun b => b)) = 0 ∧
    countOccur (str "#3B82F6")
      (renderCallout ⟨str ":::constructor T\nB\n:::", str "constructor",
        str "T", str "B"⟩ (fun b => b)) = 0 ∧
    countOccur (str "#EFF6FF")
      (renderCallout ⟨str ":::constructor T\nB\n:::", str "constructor",
        str "T", str "B"⟩ (fun b => b)) = 0 ∧
    countOccur (str "border-left: 4px solid undefined")
      (renderCallout ⟨str ":::constructor T\nB\n:::", str "constructor",
        str "T", str "B"⟩ (fun b => b)) = 1 ∧
    countOccur (str "class=\"callout callout-constructor\"")
      (renderCallout ⟨str ":::constructor T\nB\n:::", str "constructor",
        str "T", str "B"⟩ (fun b => b)) = 1 := by
  refine ⟨by decide, by decide, by decide, by decide, by decide, by decide,
    by decide, by decide⟩

/-- C3 (amended).  For a callout whose type token is neither one of the nine
registry keys nor a property name inherited from `Object.prototype`,
rendering falls back to the `info` definition (all five styling fields taken
from `info`); a token naming an inherited `Object.prototype` property does
not fall back — its destructured style fields are all `undefined` and the
fragment is built from those.  In both cases the container CSS class is
`callout-` followed by the original token. -/
theorem renderCallout_unknown_type (m : CalloutMatch) (mdR : List Char → List Char) :
    (m.type ∉ CALLOUT_TYPES.map Prod.fst → m.type ∉ OBJECT_PROTOTYPE_KEYS →
      lookupD m.type = infoDef ∧
      renderCallout m mdR = buildCallout infoDef m mdR) ∧
    (m.type ∉ CALLOUT_TYPES.map Prod.fst → m.type ∈ OBJECT_PROTOTYPE_KEYS →
      lookupD m.type = undefinedDef ∧
      renderCallout m mdR = buildCallout undefinedDef m mdR) ∧
    containsSeg (str "class=\"callout callout-" ++ m.type ++ str "\"")
      (renderCallout m mdR) := by
  refine ⟨fun h hp => ?_, fun h hp => ?_, ?_⟩
  · have hl : lookupD m.type = infoDef := by
      rw [lookupD]
      simp only [lookupDef_eq_none CALLOUT_TYPES m.type h]
      rw [if_neg hp]
    exact ⟨hl, by rw [renderCallout, hl]⟩
  · have hl : lookupD m.type = undefinedDef := by
      rw [lookupD]
      simp only [lookupDef_eq_none CALLOUT_TYPES m.type h]
      rw [if_pos hp]
    exact ⟨hl, by rw [renderCallout, hl]⟩
  · refine ⟨str "<div ", (str " style=\"" ++ containerStyle (lookupD m.type) ++ str "\">" ++
      (str "<div class=\"callout-title\" style=\"" ++ titleStyle (lookupD m.type) ++ str "\">") ++
      (str "<span class=\"callout-icon\">" ++ (lookupD m.type).emoji ++ str "</span> " ++ m.title) ++
      str "</div>" ++
      (if m.body.isEmpty then [] else calloutBodyDiv (lookupD m.type) (mdR m.body)) ++
      str "</div>"), ?_⟩
    simp only [renderCallout, buildCallout, calloutHead, str, List.append_assoc]
    rfl

/-- C3 witness: the type token `totallyUnknown` is neither a registry key nor
an inherited property, so the fragment uses `info` styling. -/
theorem renderCallout_unknown_type_witness :
    lookupD (str "totallyUnknown") = infoDef ∧
    renderCallout ⟨str ":::totallyUnknown Title\nBody\n:::", str "totallyUnknown",
        str "Title", str "Body"⟩ (fun b => b) =
      buildCallout infoDef ⟨str ":::totallyUnknown Title\nBody\n:::", str "totallyUnknown",
        str "Title", str "Body"⟩ (fun b => b) :=
  (renderCallout_unknown_type
    ⟨str ":::totallyUnknown Title\nBody\n:::", str "totallyUnknown", str "Title", str "Body"⟩
    (fun b => b)).1 (by decide) (by decide)

-- ---------------------------------------------------------------------------
-- C10: opening line without a title still matches
-- ---------------------------------------------------------------------------

/-- C10.  The input `:::info\nBody line\n:::` is not rejected: the `\s+`
separator consumes the line break, the first body line is captured as the
title, and the resulting body is empty. -/
theorem extractCallouts_no_title_line :
    extractCallouts (str ":::info\nBody line\n:::") =
      [⟨str ":::info\nBody line\n:::", str "info", str "Body line", []⟩] := by
  decide

-- ---------------------------------------------------------------------------
-- Occurrence bookkeeping for replaceAll / splitOnL
-- ---------------------------------------------------------------------------

theorem prefixAt_append_self (u pat v : List Char) :
    prefixAt (u ++ pat ++ v) u.length pat = true := by
  simp [prefixAt, List.drop_left, List.take_left]

theorem containsSeg_iff_occurrence (pat piece : List Char) (h : containsSeg pat piece) :
    ∃ j, prefixAt piece j pat = true ∧ j + pat.length ≤ piece.length := by
  obtain ⟨u, v, huv⟩ := h
  refine ⟨u.length, ?_, ?_⟩
  · rw [huv]; exact prefixAt_append_self u pat v
  · rw [huv]; simp only [List.length_append]; omega

theorem prefixAt_of_take (s pat : List Char) (i j : Nat)
    (hp : prefixAt (s.take i) j pat = true)
    (hb : j + pat.length ≤ (s.take i).length) :
    prefixAt s j pat = true := by
  simp only [prefixAt, beq_iff_eq] at hp ⊢
  rw [List.drop_take, List.take_take] at hp
  have hlen : (s.take i).length ≤ i := by simp [List.length_take]
  have : min pat.length (i - j) = pat.length := by omega
  rwa [this] at hp

theorem prefixAt_true_bound (s pat : List Char) (j : Nat) (hpat : pat ≠ [])
    (h : prefixAt s j pat = true) : j + pat.length ≤ s.length := by
  simp only [prefixAt, beq_iff_eq] at h
  have hlen := congrArg List.length h
  simp only [List.length_take, List.length_drop] at hlen
  have h3 : 1 ≤ pat.length := List.length_pos.mpr hpat
  omega

theorem prefixAt_oob (s pat : List Char) (j : Nat) (hpat : pat ≠ [])
    (hj : s.length < j + pat.length) : prefixAt s j pat = false := by
  cases hp : prefixAt s j pat
  · rfl
  · have := prefixAt_true_bound s pat j hpat hp
    omega

theorem indexOfAux_none (pat : List Char) (hpat : pat ≠ []) :
    ∀ suf i, indexOfAux pat suf i = none → ∀ d, prefixAt suf d pat = false := by
  intro suf
  induction suf with
  | nil =>
    intro i _ d
    rw [prefixAt, List.drop_nil]
    cases hp : (List.take pat.length ([] : List Char) == pat)
    · rfl
    · exfalso
      rw [List.take_nil] at hp
      rw [beq_iff_eq] at hp
      exact hpat hp.symm
  | cons c rest ih =>
    intro i h d
    simp only [indexOfAux] at h
    by_cases hc : ((c :: rest).take pat.length == pat) = true
    · rw [if_pos hc] at h; cases h
    · rw [if_neg hc] at h
      cases d with
      | zero => exact eq_false_of_ne_true hc
      | succ d =>
        rw [prefixAt, List.drop_succ_cons]
        exact ih (i + 1) h d

theorem indexOf_none_no_occurrence (s pat : List Char) (hpat : pat ≠ [])
    (h : indexOf s pat = none) : ∀ j, prefixAt s j pat = false :=
  indexOfAux_none pat hpat s 0 h

theorem splitOnFuel_ne_nil (pat : List Char) (f : Nat) (s : List Char) :
    splitOnFuel pat f s ≠ [] := by
  cases f with
  | zero => simp [splitOnFuel]
  | succ f =>
    simp only [splitOnFuel]
    cases indexOf s pat with
    | none => simp
    | some i => simp

theorem intercal_cons_of_ne_nil (sep x : List Char) (L : List (List Char)) (h : L ≠ []) :
    intercal sep (x :: L) = x ++ sep ++ intercal sep L := by
  cases L with
  | nil => exact absurd rfl h
  | cons y r => rfl

theorem getSubstitution_cons_not_dollar (matched before after : List Char)
    (c : Char) (r : List Char) (h : c ≠ '$') :
    getSubstitution matched before after (c :: r) =
      c :: getSubstitution matched before after r := by
  cases r with
  | nil => simp only [getSubstitution, if_neg h]
  | cons d r2 => simp only [getSubstitution, if_neg h]

theorem getSubstitution_no_dollar (matched before after : List Char) :
    ∀ rep, (∀ c ∈ rep, c ≠ '$') →
      getSubstitution matched before after rep = rep := by
  intro rep
  induction rep with
  | nil => intro _; rfl
  | cons c r ih =>
    intro h
    rw [getSubstitution_cons_not_dollar matched before after c r
        (h c (List.mem_cons_self c r)),
      ih fun c hc => h c (List.mem_cons_of_mem _ hc)]

theorem replaceAllSubstAux_eq_intercal (pat rep : List Char)
    (hrep : ∀ c ∈ rep, c ≠ '$') :
    ∀ f pre s, replaceAllSubstAux pat rep f pre s = intercal rep (splitOnFuel pat f s) := by
  intro f
  induction f with
  | zero => intro pre s; rfl
  | succ f ih =>
    intro pre s
    cases hio : indexOf s pat with
    | none => simp only [replaceAllSubstAux, splitOnFuel, hio, intercal]
    | some i =>
      simp only [replaceAllSubstAux, splitOnFuel, hio]
      rw [getSubstitution_no_dollar _ _ _ rep hrep,
        intercal_cons_of_ne_nil _ _ _ (splitOnFuel_ne_nil pat f _), ih]

theorem replaceAll_eq_intercal (s pat rep : List Char) (hrep : ∀ c ∈ rep, c ≠ '$') :
    replaceAll s pat rep = intercal rep (splitOnL pat s) :=
  replaceAllSubstAux_eq_intercal pat rep hrep (s.length + 1) [] s

theorem splitOnFuel_pieces_free (pat : List Char) (hpat : pat ≠ []) :
    ∀ f s, s.length < f → ∀ piece ∈ splitOnFuel pat f s, ¬ containsSeg pat piece := by
  intro f
  induction f with
  | zero => intro s hf; omega
  | succ f ih =>
    intro s hf piece hmem hseg
    simp only [splitOnFuel] at hmem
    obtain ⟨j, hj, hjb⟩ := containsSeg_iff_occurrence pat piece hseg
    cases hio : indexOf s pat with
    | none =>
      rw [hio] at hmem
      simp only [List.mem_singleton] at hmem
      have h5 := indexOf_none_no_occurrence s pat hpat hio j
      rw [hmem] at hj
      rw [hj] at h5
      cases h5
    | some i =>
      rw [hio] at hmem
      rcases List.mem_cons.mp hmem with rfl | htail
      · -- an occurrence inside the piece before the first occurrence of pat
        have hfirst := (indexOf_first s pat i hio).2
        have hjlt : j < i := by
          have : (s.take i).length ≤ i := by simp [List.length_take]
          have h3 : 1 ≤ pat.length := List.length_pos.mpr hpat
          omega
        have := hfirst j hjlt
        rw [prefixAt_of_take s pat i j hj hjb] at this
        cases this
      · have hrest : (s.drop (i + pat.length)).length < f := by
          have h3 : 1 ≤ pat.length := List.length_pos.mpr hpat
          have hbd := prefixAt_true_bound s pat i hpat (indexOf_first s pat i hio).1
          simp only [List.length_drop]
          omega
        exact ih _ hrest piece htail hseg

theorem splitOnL_pieces_free (pat s : List Char) (hpat : pat ≠ [])
    (piece : List Char) (hmem : piece ∈ splitOnL pat s) : ¬ containsSeg pat piece :=
  splitOnFuel_pieces_free pat hpat (s.length + 1) s (by omega) piece hmem

theorem placeholderFor_ne_nil (name : List Char) : placeholderFor name ≠ [] := by
  simp [placeholderFor, str]

theorem diagramWrapper_no_dollar (svg : List Char) (h : ∀ c ∈ svg, c ≠ '$') :
    ∀ c ∈ diagramWrapper svg, c ≠ '$' := by
  intro c hc
  rw [diagramWrapper] at hc
  rcases List.mem_append.mp hc with hc | hc
  · rcases List.mem_append.mp hc with hc | hc
    · exact (by decide :
        ∀ c ∈ str "<div class=\"diagram-container\"><div class=\"diagram-svg\">",
          c ≠ '$') c hc
    · exact h c hc
  · exact (by decide : ∀ c ∈ str "</div></div>", c ≠ '$') c hc

-- ---------------------------------------------------------------------------
-- C8: diagram substitution in renderContent
-- ---------------------------------------------------------------------------

/-- C8 counterexample.  The source substitutes with `String.replaceAll`,
whose string replacement undergoes ECMAScript GetSubstitution, so an SVG
containing dollar patterns is not embedded verbatim: with diagram
`(x, $&)` the placeholder text itself — not the literal SVG string — ends
up inside the wrapper, and the output contains no occurrence of the supplied
SVG string at all. -/
theorem diagram_svg_not_verbatim_cex :
    substituteDiagrams (str "\x7b\x7bdiagram:x\x7d\x7d") (some [⟨str "x", str "$&"⟩]) =
      str "<div class=\"diagram-container\"><div class=\"diagram-svg\">\x7b\x7bdiagram:x\x7d\x7d</div></div>" ∧
    countOccur (str "$&")
      (substituteDiagrams (str "\x7b\x7bdiagram:x\x7d\x7d")
        (some [⟨str "x", str "$&"⟩])) = 0 := by
  refine ⟨by decide, by decide⟩

/-- C8 (amended).  The diagram-substitution step of `renderContent`: with no
diagram list, or an empty one, the HTML is returned unchanged; for a supplied
diagram whose SVG contains no dollar sign (so GetSubstitution leaves the
replacement verbatim) the substitution rewrites the HTML into the
placeholder-free pieces of the original joined by the wrapper markup
embedding the SVG (so every occurrence of the placeholder is replaced, not
just the first, and the SVG is embedded verbatim); a diagram whose
placeholder does not occur leaves the HTML unchanged; on the specification's
example the output embeds the SVG exactly twice with no literal placeholder
left, and a placeholder naming an unsupplied diagram survives verbatim. -/
theorem renderContent_diagram_substitution :
    (∀ html, substituteDiagrams html none = html) ∧
    (∀ html, substituteDiagrams html (some []) = html) ∧
    (∀ html name svg, (∀ c ∈ svg, c ≠ '$') →
      replaceAll html (placeholderFor name) (diagramWrapper svg) =
        intercal (diagramWrapper svg) (splitOnL (placeholderFor name) html) ∧
      ∀ piece ∈ splitOnL (placeholderFor name) html,
        ¬ containsSeg (placeholderFor name) piece) ∧
    (∀ html d, indexOf html (placeholderFor d.name) = none →
      substituteDiagrams html (some [d]) = html) ∧
    (countOccur (str "<svg/>")
        (substituteDiagrams (str "\x7b\x7bdiagram:x\x7d\x7d and \x7b\x7bdiagram:x\x7d\x7d")
          (some [⟨str "x", str "<svg/>"⟩])) = 2 ∧
      countOccur (str "\x7b\x7bdiagram:x\x7d\x7d")
        (substituteDiagrams (str "\x7b\x7bdiagram:x\x7d\x7d and \x7b\x7bdiagram:x\x7d\x7d")
          (some [⟨str "x", str "<svg/>"⟩])) = 0 ∧
      countOccur (str "\x7b\x7bdiagram:y\x7d\x7d")
        (substituteDiagrams (str "a \x7b\x7bdiagram:y\x7d\x7d b")
          (some [⟨str "x", str "<svg/>"⟩])) = 1) := by
  refine ⟨fun html => rfl, fun html => rfl, fun html name svg hsvg => ?_,
    fun html d h => ?_, ?_⟩
  · exact ⟨replaceAll_eq_intercal html (placeholderFor name) (diagramWrapper svg)
        (diagramWrapper_no_dollar svg hsvg),
      fun piece hmem =>
        splitOnL_pieces_free (placeholderFor name) html (placeholderFor_ne_nil name) piece hmem⟩
  · show replaceAll html (placeholderFor d.name) (diagramWrapper d.svg) = html
    simp only [replaceAll, replaceAllSubstAux, h]
  · exact ⟨by decide, by decide, by decide⟩

/-- C8 witness: the substitution applied concretely, with the dollar-free
and unreferenced-diagram hypotheses discharged on explicit inputs. -/
theorem renderContent_diagram_substitution_witness :
    replaceAll (str "q") (placeholderFor (str "x")) (diagramWrapper (str "<svg/>")) =
      intercal (diagramWrapper (str "<svg/>"))
        (splitOnL (placeholderFor (str "x")) (str "q")) ∧
    substituteDiagrams (str "nothing here") (some [⟨str "x", str "<svg/>"⟩]) =
      str "nothing here" ∧
    substituteDiagrams (str "plain") none = str "plain" :=
  ⟨(renderContent_diagram_substitution.2.2.1 (str "q") (str "x") (str "<svg/>")
      (by decide)).1,
    renderContent_diagram_substitution.2.2.2.1 (str "nothing here")
      ⟨str "x", str "<svg/>"⟩ (by decide),
    renderContent_diagram_substitution.1 (str "plain")⟩

-- ---------------------------------------------------------------------------
-- Provenance of extracted matches
-- ---------------------------------------------------------------------------

theorem mem_scanCallouts (s : List Char) :
    ∀ f i m, m ∈ scanCallouts s f i → ∃ i0 e, tryCallout s i0 = some (m, e) := by
  intro f
  induction f with
  | zero => intro i m h; simp [scanCallouts] at h
  | succ f ih =>
    intro i m h
    simp only [scanCallouts] at h
    by_cases hq : i > s.length
    · rw [if_pos hq] at h; simp at h
    · rw [if_neg hq] at h
      cases ht : tryCallout s i with
      | none => rw [ht] at h; exact ih (i + 1) m h
      | some r =>
        rw [ht] at h
        rcases List.mem_cons.mp h with rfl | htail
        · exact ⟨i, r.2, ht⟩
        · exact ih r.2 m htail

theorem mem_extractCallouts (s : List Char) (m : CalloutMatch)
    (h : m ∈ extractCallouts s) : ∃ i e, tryCallout s i = some (m, e) :=
  mem_scanCallouts s (s.length + 1) 0 m h

theorem tryTail_elim (s : List Char) (i j k m : Nat) (cm : CalloutMatch) (e : Nat)
    (h : tryTail s i j k m = some (cm, e)) :
    ∃ n q, findIdxFrom isLineTerm s (k + m) = some n ∧ charAt s n = some '\n' ∧
      findBareLine (str ":::") s (n + 1) = some q ∧
      cm = ⟨seg s i (q + 3), seg s j k, seg s (k + m) n, trim (seg s (n + 1) q)⟩ ∧
      e = q + 3 := by
  simp only [tryTail] at h
  cases hn : findIdxFrom isLineTerm s (k + m) with
  | none => simp [hn] at h
  | some n =>
    simp only [hn] at h
    by_cases hc : charAt s n = some '\n'
    · rw [if_pos hc] at h
      cases hq : findBareLine (str ":::") s (n + 1) with
      | none => simp [hq] at h
      | some q =>
        simp only [hq] at h
        injection h with h
        injection h with h1 h2
        exact ⟨n, q, rfl, hc, hq, h1.symm, h2.symm⟩
    · rw [if_neg hc] at h; cases h

theorem tryWsBacktrack_elim (s : List Char) (i j k : Nat) :
    ∀ w cm e, tryWsBacktrack s i j k w = some (cm, e) →
      ∃ m, 1 ≤ m ∧ m ≤ w ∧ tryTail s i j k m = some (cm, e) ∧
        (m < w → tryTail s i j k (m + 1) = none) := by
  intro w
  induction w with
  | zero => intro cm e h; simp [tryWsBacktrack] at h
  | succ w ih =>
    intro cm e h
    simp only [tryWsBacktrack] at h
    cases ht : tryTail s i j k (w + 1) with
    | some r =>
      rw [ht] at h
      injection h with h
      subst h
      exact ⟨w + 1, by omega, Nat.le_refl _, ht, fun hlt => absurd hlt (Nat.lt_irrefl _)⟩
    | none =>
      rw [ht] at h
      obtain ⟨m, h1, h2, h3, h4⟩ := ih cm e h
      refine ⟨m, h1, by omega, h3, fun hlt => ?_⟩
      rcases Nat.lt_or_ge m w with hmw | hmw
      · exact h4 hmw
      · have : m = w := by omega
        subst this
        exact ht

theorem tryCallout_elim (s : List Char) (i : Nat) (cm : CalloutMatch) (e : Nat)
    (h : tryCallout s i = some (cm, e)) :
    isLineStart s i = true ∧ prefixAt s i (str ":::") = true ∧
      runLenAt isWordChar s (i + 3) ≠ 0 ∧
      runLenAt isJsWS s (i + 3 + runLenAt isWordChar s (i + 3)) ≠ 0 ∧
      tryWsBacktrack s i (i + 3) (i + 3 + runLenAt isWordChar s (i + 3))
        (runLenAt isJsWS s (i + 3 + runLenAt isWordChar s (i + 3))) = some (cm, e) := by
  simp only [tryCallout] at h
  by_cases hg : (isLineStart s i && prefixAt s i (str ":::")) = true
  · rw [if_pos hg] at h
    by_cases ht : runLenAt isWordChar s (i + 3) = 0
    · rw [if_pos ht] at h; cases h
    · rw [if_neg ht] at h
      by_cases hw : runLenAt isJsWS s (i + 3 + runLenAt isWordChar s (i + 3)) = 0
      · rw [if_pos hw] at h; cases h
      · rw [if_neg hw] at h
        obtain ⟨h1, h2⟩ := Bool.and_eq_true_iff.mp hg
        exact ⟨h1, h2, ht, hw, h⟩
  · rw [if_neg hg] at h; cases h

-- ---------------------------------------------------------------------------
-- Runs of characters
-- ---------------------------------------------------------------------------

theorem take_runLen_eq_takeWhile (p : Char → Bool) (l : List Char) :
    l.take (runLen p l) = l.takeWhile p := by
  induction l with
  | nil => rfl
  | cons c r ih =>
    by_cases hc : p c = true
    · simp [runLen, List.takeWhile_cons, hc, ih]
    · simp [runLen, List.takeWhile_cons, hc]

theorem runLen_eq_length_takeWhile (p : Char → Bool) (l : List Char) :
    runLen p l = (l.takeWhile p).length := by
  induction l with
  | nil => rfl
  | cons c r ih =>
    by_cases hc : p c = true
    · simp [runLen, List.takeWhile_cons, hc, ih]
    · simp [runLen, List.takeWhile_cons, hc]

theorem runLen_sat (p : Char → Bool) (l : List Char) :
    ∀ d, d < runLen p l → ∀ c, l[d]? = some c → p c = true := by
  induction l with
  | nil => intro d hd; simp [runLen] at hd
  | cons a r ih =>
    intro d hd c hc
    by_cases ha : p a = true
    · cases d with
      | zero => simp at hc; rwa [hc] at ha
      | succ d =>
        simp only [runLen, ha, if_true] at hd
        simp only [List.getElem?_cons_succ] at hc
        exact ih d (by omega) c hc
    · simp [runLen, ha] at hd

theorem runLen_stop (p : Char → Bool) (l : List Char) :
    ∀ c, l[runLen p l]? = some c → p c = false := by
  induction l with
  | nil => intro c hc; simp at hc
  | cons a r ih =>
    intro c hc
    by_cases ha : p a = true
    · simp only [runLen, ha, if_true, List.getElem?_cons_succ] at hc
      exact ih c hc
    · simp only [runLen] at hc
      rw [if_neg ha] at hc
      simp only [List.getElem?_cons_zero] at hc
      injection hc with hc
      rw [hc] at ha
      exact eq_false_of_ne_true ha

theorem runLenAt_sat (p : Char → Bool) (s : List Char) (i : Nat) :
    ∀ d, d < runLenAt p s i → ∀ c, charAt s (i + d) = some c → p c = true := by
  intro d hd c hc
  refine runLen_sat p (s.drop i) d hd c ?_
  rw [List.getElem?_drop]
  exact hc

theorem runLenAt_stop (p : Char → Bool) (s : List Char) (i : Nat) :
    ∀ c, charAt s (i + runLenAt p s i) = some c → p c = false := by
  intro c hc
  refine runLen_stop p (s.drop i) c ?_
  rw [List.getElem?_drop]
  exact hc

-- ---------------------------------------------------------------------------
-- Trimming
-- ---------------------------------------------------------------------------

theorem head_dropWhile_false (p : Char → Bool) (l : List Char) :
    ∀ c, (l.dropWhile p).head? = some c → p c = false := by
  induction l with
  | nil => intro c h; cases h
  | cons a r ih =>
    intro c h
    by_cases ha : p a = true
    · rw [List.dropWhile_cons_of_pos ha] at h
      exact ih c h
    · rw [List.dropWhile_cons_of_neg ha] at h
      injection h with h
      rw [h] at ha
      exact eq_false_of_ne_true ha

theorem dropWhile_of_head_false (p : Char → Bool) (l : List Char)
    (h : ∀ c, l.head? = some c → p c = false) : l.dropWhile p = l := by
  cases l with
  | nil => rfl
  | cons a r =>
    have := h a rfl
    rw [List.dropWhile_cons_of_neg (by rw [this]; exact Bool.false_ne_true)]

theorem getLast?_dropWhile_ne_nil (p : Char → Bool) (l : List Char)
    (h : l.dropWhile p ≠ []) : (l.dropWhile p).getLast? = l.getLast? := by
  induction l with
  | nil => exact absurd rfl h
  | cons a r ih =>
    by_cases ha : p a = true
    · rw [List.dropWhile_cons_of_pos ha] at h ⊢
      have hr : r ≠ [] := by
        intro hre
        rw [hre] at h
        exact h rfl
      rw [ih h]
      cases r with
      | nil => exact absurd rfl hr
      | cons b t => rw [List.getLast?_cons_cons]
    · rw [List.dropWhile_cons_of_neg ha]

theorem trim_trim (s : List Char) : trim (trim s) = trim s := by
  unfold trim
  set A := s.dropWhile isJsWS with hA
  set B := A.reverse.dropWhile isJsWS with hB
  have hBhead : ∀ c, B.head? = some c → isJsWS c = false :=
    head_dropWhile_false isJsWS A.reverse
  have hstep1 : B.reverse.dropWhile isJsWS = B.reverse := by
    apply dropWhile_of_head_false
    intro c hc
    rw [List.head?_reverse] at hc
    by_cases hBe : B = []
    · rw [hBe] at hc; cases hc
    · rw [getLast?_dropWhile_ne_nil isJsWS A.reverse (hB ▸ hBe), List.getLast?_reverse] at hc
      exact head_dropWhile_false isJsWS s c hc
  rw [hstep1, List.reverse_reverse]
  rw [dropWhile_of_head_false isJsWS B hBhead]

-- ---------------------------------------------------------------------------
-- C5: trimmed bodies and conditional body rendering
-- ---------------------------------------------------------------------------

/-- C5.  Every extracted callout's body is handed to rendering already trimmed
of leading and trailing whitespace (trimming it again changes nothing); the
rendered fragment consists of the head part plus a body sub-element exactly
when the body is nonempty (and no body sub-element otherwise); and on the
specification's whitespace-only-body example the extracted body is empty and
the rendered fragment contains no `callout-body` element. -/
theorem callout_body_trimmed_and_conditional :
    (∀ s m, m ∈ extractCallouts s → trim m.body = m.body) ∧
    (∀ (m : CalloutMatch) (mdR : List Char → List Char), m.body = [] →
      renderCallout m mdR = calloutHead (lookupD m.type) m ++ str "</div>") ∧
    (∀ (m : CalloutMatch) (mdR : List Char → List Char), m.body ≠ [] →
      renderCallout m mdR = calloutHead (lookupD m.type) m ++
        calloutBodyDiv (lookupD m.type) (mdR m.body) ++ str "</div>") ∧
    (extractCallouts (str ":::info Title\n   \n:::") =
        [⟨str ":::info Title\n   \n:::", str "info", str "Title", []⟩] ∧
      countOccur (str "callout-body")
        (renderCallout ⟨str ":::info Title\n   \n:::", str "info", str "Title", []⟩
          (fun b => b)) = 0) := by
  refine ⟨fun s m hm => ?_, fun m mdR hb => ?_, fun m mdR hb => ?_, by decide, by decide⟩
  · obtain ⟨i, e, ht⟩ := mem_extractCallouts s m hm
    obtain ⟨_, _, _, _, hbk⟩ := tryCallout_elim s i m e ht
    obtain ⟨mm, _, _, htail, _⟩ := tryWsBacktrack_elim s i _ _ _ m e hbk
    obtain ⟨n, q, _, _, _, hcm, _⟩ := tryTail_elim s i _ _ mm m e htail
    rw [hcm]
    exact trim_trim _
  · rw [renderCallout, buildCallout, hb]
    simp [List.append_assoc]
  · rw [renderCallout, buildCallout]
    rw [if_neg (by simpa [List.isEmpty_iff] using hb)]

/-- C5 witness: a body with surrounding whitespace is extracted in trimmed
form, and an empty-body match renders to the head part with no body div. -/
theorem callout_body_trimmed_and_conditional_witness :
    trim (str "B") = str "B" ∧
    renderCallout ⟨str "x", str "info", str "T", []⟩ (fun b => b) =
      calloutHead (lookupD (str "info")) ⟨str "x", str "info", str "T", []⟩ ++
        str "</div>" :=
  ⟨callout_body_trimmed_and_conditional.1 (str ":::info T\n  B  \n:::")
      ⟨str ":::info T\n  B  \n:::", str "info", str "T", str "B"⟩ (by decide),
    callout_body_trimmed_and_conditional.2.1 ⟨str "x", str "info", str "T", []⟩
      (fun b => b) rfl⟩

-- ---------------------------------------------------------------------------
-- First-index search: soundness, completeness, and restart one step later
-- ---------------------------------------------------------------------------

theorem charAt_some_lt (s : List Char) (n : Nat) (c : Char) (h : charAt s n = some c) :
    n < s.length := by
  by_contra hn
  rw [charAt, List.getElem?_eq_none (by omega)] at h
  cases h

theorem findIdxFromFuel_sound (p : Char → Bool) (s : List Char) :
    ∀ f i n, findIdxFromFuel p s f i = some n →
      i ≤ n ∧ (∃ c, charAt s n = some c ∧ p c = true) ∧
      ∀ x, i ≤ x → x < n → ∀ c, charAt s x = some c → p c = false := by
  intro f
  induction f with
  | zero => intro i n h; simp [findIdxFromFuel] at h
  | succ f ih =>
    intro i n h
    simp only [findIdxFromFuel] at h
    cases hci : charAt s i with
    | none => simp [hci] at h
    | some c =>
      simp only [hci] at h
      by_cases hp : p c = true
      · rw [if_pos hp] at h
        injection h with h
        subst h
        exact ⟨Nat.le_refl _, ⟨c, hci, hp⟩,
          fun x hx1 hx2 _ _ => absurd (Nat.lt_of_le_of_lt hx1 hx2) (Nat.lt_irrefl _)⟩
      · rw [if_neg hp] at h
        obtain ⟨h1, h2, h3⟩ := ih (i + 1) n h
        refine ⟨by omega, h2, fun x hx1 hx2 c' hc' => ?_⟩
        rcases Nat.eq_or_lt_of_le hx1 with rfl | hlt
        · rw [hci] at hc'
          injection hc' with hc'
          rw [← hc']
          exact eq_false_of_ne_true hp
        · exact h3 x hlt hx2 c' hc'

theorem findIdxFromFuel_complete (p : Char → Bool) (s : List Char) :
    ∀ f i n c, charAt s n = some c → p c = true →
      (∀ x, i ≤ x → x < n → ∀ c', charAt s x = some c' → p c' = false) →
      i ≤ n → n < i + f → findIdxFromFuel p s f i = some n := by
  intro f
  induction f with
  | zero => intro i n c _ _ _ _ h5; omega
  | succ f ih =>
    intro i n c h1 h2 h3 h4 h5
    simp only [findIdxFromFuel]
    rcases Nat.eq_or_lt_of_le h4 with rfl | hlt
    · simp only [h1]
      rw [if_pos h2]
    · cases hci : charAt s i with
      | none =>
        exfalso
        have hn := charAt_some_lt s n c h1
        rw [charAt, List.getElem?_eq_none_iff] at hci
        omega
      | some c' =>
        simp only [hci]
        by_cases hp : p c' = true
        · exfalso
          have := h3 i (Nat.le_refl _) hlt c' hci
          rw [hp] at this
          cases this
        · rw [if_neg hp]
          exact ih (i + 1) n c h1 h2 (fun x hx1 hx2 => h3 x (by omega) hx2)
            (by omega) (by omega)

theorem findIdxFrom_succ (p : Char → Bool) (s : List Char) (i n : Nat)
    (h : findIdxFrom p s i = some n) (hne : i < n) :
    findIdxFrom p s (i + 1) = some n := by
  obtain ⟨h1, ⟨c, hc, hp⟩, h3⟩ := findIdxFromFuel_sound p s (s.length + 1) i n h
  have hn := charAt_some_lt s n c hc
  exact findIdxFromFuel_complete p s (s.length + 1) (i + 1) n c hc hp
    (fun x hx1 hx2 => h3 x (by omega) hx2) (by omega) (by omega)

-- ---------------------------------------------------------------------------
-- C6: the type-title whitespace separator is fully consumed
-- ---------------------------------------------------------------------------

theorem extracted_title_head_not_ws (s : List Char) (m : CalloutMatch)
    (hm : m ∈ extractCallouts s) : ∀ c, m.title.head? = some c → isJsWS c = false := by
  intro c hc
  obtain ⟨i, e, ht⟩ := mem_extractCallouts s m hm
  obtain ⟨_, _, _, _, hbk⟩ := tryCallout_elim s i m e ht
  obtain ⟨mm, hm1, hm2, htail, hmax⟩ :=
    tryWsBacktrack_elim s i (i + 3) (i + 3 + runLenAt isWordChar s (i + 3))
      (runLenAt isJsWS s (i + 3 + runLenAt isWordChar s (i + 3))) m e hbk
  obtain ⟨n, q, hn, hnl, hq, hcm, _⟩ :=
    tryTail_elim s i (i + 3) (i + 3 + runLenAt isWordChar s (i + 3)) mm m e htail
  set k := i + 3 + runLenAt isWordChar s (i + 3) with hk
  set w := runLenAt isJsWS s k with hw
  -- the title is the segment from p = k + mm to the first line terminator n
  have htitle : m.title = seg s (k + mm) n := by rw [hcm]
  rw [htitle] at hc
  rw [seg, List.head?_take] at hc
  by_cases hz : n - (k + mm) = 0
  · rw [if_pos hz] at hc; cases hc
  · rw [if_neg hz, List.head?_drop] at hc
    -- so the character at position k + mm is c, and it is not a line terminator
    obtain ⟨hle, ⟨cn, hcn, hcnp⟩, hfirst⟩ :=
      findIdxFromFuel_sound isLineTerm s (s.length + 1) (k + mm) n hn
    have hplt : k + mm < n := by omega
    have hnotlt : isLineTerm c = false :=
      hfirst (k + mm) (Nat.le_refl _) hplt c hc
    rcases Nat.lt_or_ge mm w with hmw | hmw
    · -- mm < w: position k + mm is inside the whitespace run, so the next
      -- larger separator length would also have matched, contradicting
      -- the greedy backtracking order
      exfalso
      have hws : isJsWS c = true := runLenAt_sat isJsWS s k mm hmw c hc
      have hsucc : findIdxFrom isLineTerm s (k + mm + 1) = some n :=
        findIdxFrom_succ isLineTerm s (k + mm) n hn hplt
      have harr : k + (mm + 1) = k + mm + 1 := by omega
      have hnone := hmax hmw
      rw [tryTail] at hnone
      simp only [harr, hsucc, hnl, if_true, hq] at hnone
      cases hnone
    · -- mm = w: the title starts at the first character after the
      -- whitespace run, which by maximality of the run is not whitespace
      have hmmw : mm = w := by omega
      rw [hmmw] at hc
      exact runLenAt_stop isJsWS s k c hc

/-- C6.  In a callout opening line the whitespace run between the type token
and the title is fully consumed: an extracted title never starts with a
whitespace character (internal whitespace is preserved verbatim); on the
specification's example the captured title is exactly `Double  Space Title`;
and the rendered title content is the icon, one literal space, then the
title text (the fragment contains `</span> ` immediately followed by the
title and the title-div close). -/
theorem callout_title_separator :
    (∀ s m, m ∈ extractCallouts s → ∀ c, m.title.head? = some c → isJsWS c = false) ∧
    (extractCallouts (str ":::info  Double  Space Title\nBody\n:::") =
      [⟨str ":::info  Double  Space Title\nBody\n:::", str "info",
        str "Double  Space Title", str "Body"⟩]) ∧
    (∀ (m : CalloutMatch) (mdR : List Char → List Char),
      containsSeg (str "</span> " ++ m.title ++ str "</div>") (renderCallout m mdR)) := by
  refine ⟨extracted_title_head_not_ws, by decide, fun m mdR => ?_⟩
  refine ⟨str "<div class=\"callout callout-" ++ m.type ++ str "\" style=\"" ++
      containerStyle (lookupD m.type) ++ str "\">" ++
      str "<div class=\"callout-title\" style=\"" ++ titleStyle (lookupD m.type) ++
      str "\">" ++ str "<span class=\"callout-icon\">" ++ (lookupD m.type).emoji,
    (if m.body.isEmpty then [] else calloutBodyDiv (lookupD m.type) (mdR m.body)) ++
      str "</div>", ?_⟩
  simp [renderCallout, buildCallout, calloutHead, List.append_assoc]

/-- C6 witness: on the double-space example the extracted title starts with
`D`, which is not whitespace. -/
theorem callout_title_separator_witness : isJsWS 'D' = false :=
  callout_title_separator.1 (str ":::info  Double  Space Title\nBody\n:::")
    ⟨str ":::info  Double  Space Title\nBody\n:::", str "info",
      str "Double  Space Title", str "Body"⟩ (by decide) 'D' (by decide)

-- ---------------------------------------------------------------------------
-- Tag counting
-- ---------------------------------------------------------------------------

theorem head?_append_ne_nil (a b : List Char) (ha : a ≠ []) :
    (a ++ b).head? = a.head? := by
  cases a with
  | nil => exact absurd rfl ha
  | cons c r => rfl

theorem openTags_cons (c : Char) (r : List Char) :
    openTags (c :: r) = (if c = '<' && r.head? != some '/' then 1 else 0) + openTags r := rfl

theorem closeTags_cons (c : Char) (r : List Char) :
    closeTags (c :: r) = (if c = '<' && r.head? == some '/' then 1 else 0) + closeTags r := rfl

theorem openTags_append (b : List Char) :
    ∀ a, (a.getLast? ≠ some '<' ∨ b.head? ≠ some '/') →
      openTags (a ++ b) = openTags a + openTags b := by
  intro a
  induction a with
  | nil => intro _; simp [openTags]
  | cons c r ih =>
    intro h
    cases r with
    | nil =>
      rw [List.singleton_append, openTags_cons, openTags_cons]
      by_cases hc : c = '<'
      · have hb : b.head? ≠ some '/' := by
          rcases h with h | h
          · subst hc; exact absurd (List.getLast?_singleton '<') h
          · exact h
        subst hc
        rw [if_pos (by simp [hb]), if_pos (by decide)]
        simp [openTags]
      · rw [if_neg (by simp [hc]), if_neg (by simp [hc])]
        simp [openTags]
    | cons e t =>
      have h' : (e :: t).getLast? ≠ some '<' ∨ b.head? ≠ some '/' := by
        rcases h with h | h
        · exact Or.inl (by rwa [List.getLast?_cons_cons] at h)
        · exact Or.inr h
      rw [List.cons_append, openTags_cons, ih h', openTags_cons c (e :: t),
        head?_append_ne_nil (e :: t) b (by simp)]
      omega

theorem closeTags_append (b : List Char) :
    ∀ a, (a.getLast? ≠ some '<' ∨ b.head? ≠ some '/') →
      closeTags (a ++ b) = closeTags a + closeTags b := by
  intro a
  induction a with
  | nil => intro _; simp [closeTags]
  | cons c r ih =>
    intro h
    cases r with
    | nil =>
      rw [List.singleton_append, closeTags_cons, closeTags_cons]
      by_cases hc : c = '<'
      · have hb : b.head? ≠ some '/' := by
          rcases h with h | h
          · subst hc; exact absurd (List.getLast?_singleton '<') h
          · exact h
        subst hc
        rw [if_neg (by simp [hb]), if_neg (by decide)]
        simp [closeTags]
      · rw [if_neg (by simp [hc]), if_neg (by simp [hc])]
        simp [closeTags]
    | cons e t =>
      have h' : (e :: t).getLast? ≠ some '<' ∨ b.head? ≠ some '/' := by
        rcases h with h | h
        · exact Or.inl (by rwa [List.getLast?_cons_cons] at h)
        · exact Or.inr h
      rw [List.cons_append, closeTags_cons, ih h', closeTags_cons c (e :: t),
        head?_append_ne_nil (e :: t) b (by simp)]
      omega

theorem tags_append_left (a b : List Char) (h : a.getLast? ≠ some '<') :
    openTags (a ++ b) = openTags a + openTags b ∧
    closeTags (a ++ b) = closeTags a + closeTags b :=
  ⟨openTags_append b a (Or.inl h), closeTags_append b a (Or.inl h)⟩

theorem tags_append_before_close (a rest : List Char) :
    openTags (a ++ (str "</div>" ++ rest)) =
      openTags a + openTags (str "</div>" ++ rest) ∧
    closeTags (a ++ (str "</div>" ++ rest)) =
      closeTags a + closeTags (str "</div>" ++ rest) := by
  have hh : (str "</div>" ++ rest).head? ≠ some '/' := by
    rw [head?_append_ne_nil _ _ (by decide)]
    decide
  exact ⟨openTags_append _ a (Or.inr hh), closeTags_append _ a (Or.inr hh)⟩

theorem tags_of_no_lt (l : List Char) (h : ∀ c ∈ l, c ≠ '<') :
    openTags l = 0 ∧ closeTags l = 0 := by
  induction l with
  | nil => exact ⟨rfl, rfl⟩
  | cons c r ih =>
    obtain ⟨ih1, ih2⟩ := ih fun c hc => h c (List.mem_cons_of_mem _ hc)
    have hc := h c (List.mem_cons_self c r)
    rw [openTags_cons, closeTags_cons, if_neg (by simp [hc]), if_neg (by simp [hc])]
    omega

-- ---------------------------------------------------------------------------
-- The registry styles contain no tags
-- ---------------------------------------------------------------------------

theorem lookupDef_mem_snd (reg : List (List Char × CalloutDef)) (t : List Char)
    (d : CalloutDef) (h : lookupDef reg t = some d) : d ∈ reg.map Prod.snd := by
  induction reg with
  | nil => cases h
  | cons kv r ih =>
    obtain ⟨k, dd⟩ := kv
    simp only [lookupDef] at h
    by_cases hk : k = t
    · rw [if_pos hk] at h
      injection h with h
      subst h
      exact List.mem_cons_self _ _
    · rw [if_neg hk] at h
      exact List.mem_cons_of_mem _ (ih h)

theorem lookupD_mem_list (t : List Char) :
    lookupD t ∈ [ideaDef, automationDef, warningDef, successDef, infoDef,
      criticalDef, businessDef, expertDef, tipDef, undefinedDef] := by
  rw [lookupD]
  cases hl : lookupDef CALLOUT_TYPES t with
  | some d =>
    have hmem := lookupDef_mem_snd CALLOUT_TYPES t d hl
    show d ∈ _
    fin_cases hmem <;> decide
  | none =>
    show (if t ∈ OBJECT_PROTOTYPE_KEYS then undefinedDef else infoDef) ∈ _
    split_ifs <;> decide

theorem registry_style_facts :
    ∀ d ∈ [ideaDef, automationDef, warningDef, successDef, infoDef,
      criticalDef, businessDef, expertDef, tipDef, undefinedDef],
      (openTags (containerStyle d) = 0 ∧ closeTags (containerStyle d) = 0 ∧
        (containerStyle d).getLast? ≠ some '<') ∧
      (openTags (titleStyle d) = 0 ∧ closeTags (titleStyle d) = 0 ∧
        (titleStyle d).getLast? ≠ some '<') ∧
      (openTags (bodyStyle d) = 0 ∧ closeTags (bodyStyle d) = 0 ∧
        (bodyStyle d).getLast? ≠ some '<') ∧
      (openTags d.emoji = 0 ∧ closeTags d.emoji = 0 ∧
        d.emoji.getLast? ≠ some '<') := by
  decide

theorem extracted_type_word (s : List Char) (m : CalloutMatch)
    (hm : m ∈ extractCallouts s) :
    m.type ≠ [] ∧ ∀ c ∈ m.type, isWordChar c = true := by
  obtain ⟨i, e, ht⟩ := mem_extractCallouts s m hm
  obtain ⟨_, _, htz, _, hbk⟩ := tryCallout_elim s i m e ht
  obtain ⟨mm, _, _, htail, _⟩ := tryWsBacktrack_elim s i _ _ _ m e hbk
  obtain ⟨n, q, _, _, _, hcm, _⟩ := tryTail_elim s i _ _ mm m e htail
  have htype : m.type = seg s (i + 3) (i + 3 + runLenAt isWordChar s (i + 3)) := by
    rw [hcm]
  have harr : i + 3 + runLenAt isWordChar s (i + 3) - (i + 3) =
      runLenAt isWordChar s (i + 3) := by omega
  rw [seg, harr, show runLenAt isWordChar s (i + 3) =
    runLen isWordChar (s.drop (i + 3)) from rfl, take_runLen_eq_takeWhile] at htype
  constructor
  · rw [htype]
    intro hemp
    apply htz
    rw [runLenAt, runLen_eq_length_takeWhile, hemp]
    rfl
  · intro c hc
    rw [htype] at hc
    exact List.mem_takeWhile_imp hc

-- ---------------------------------------------------------------------------
-- C7: balanced markup in rendered callouts
-- ---------------------------------------------------------------------------

/-- C7.  For every rendered callout coming from extraction, the fragment
produced by `renderCallout` has as many opening element tags as closing
element tags, both with and without a body sub-element, provided the title
text and the rendered body HTML contribute balanced tag counts themselves. -/
theorem renderCallout_balanced (s : List Char) (m : CalloutMatch)
    (mdR : List Char → List Char) (hm : m ∈ extractCallouts s)
    (htitle : openTags m.title = closeTags m.title)
    (hbody : openTags (mdR m.body) = closeTags (mdR m.body)) :
    openTags (renderCallout m mdR) = closeTags (renderCallout m mdR) := by
  obtain ⟨htne, htw⟩ := extracted_type_word s m hm
  obtain ⟨⟨hc1o, hc1c, hl1⟩, ⟨hc2o, hc2c, hl2⟩, ⟨hc3o, hc3c, hl3⟩, ⟨hc4o, hc4c, hl4⟩⟩ :=
    registry_style_facts (lookupD m.type) (lookupD_mem_list m.type)
  obtain ⟨htco, htcc⟩ := tags_of_no_lt m.type fun c hc hce => by
    have := htw c hc
    rw [hce] at this
    exact absurd this (by decide)
  have htl : m.type.getLast? ≠ some '<' := fun hg => by
    have := htw '<' (List.mem_of_mem_getLast? hg)
    exact absurd this (by decide)
  have hAo := fun (b : List Char) =>
    (tags_append_left (str "<div class=\"callout callout-") b (by decide))
  have hBo := fun (b : List Char) => (tags_append_left m.type b htl)
  have hCo := fun (b : List Char) => (tags_append_left (str "\" style=\"") b (by decide))
  have hDo := fun (b : List Char) =>
    (tags_append_left (containerStyle (lookupD m.type)) b hl1)
  have hEo := fun (b : List Char) => (tags_append_left (str "\">") b (by decide))
  have hFo := fun (b : List Char) =>
    (tags_append_left (str "<div class=\"callout-title\" style=\"") b (by decide))
  have hGo := fun (b : List Char) => (tags_append_left (titleStyle (lookupD m.type)) b hl2)
  have hHo := fun (b : List Char) =>
    (tags_append_left (str "<span class=\"callout-icon\">") b (by decide))
  have hIo := fun (b : List Char) => (tags_append_left (lookupD m.type).emoji b hl4)
  have hJo := fun (b : List Char) => (tags_append_left (str "</span> ") b (by decide))
  have hKo := fun (rest : List Char) => (tags_append_before_close m.title rest)
  have hLo := fun (b : List Char) => (tags_append_left (str "</div>") b (by decide))
  have hMo := fun (b : List Char) =>
    (tags_append_left (str "<div class=\"callout-body\" style=\"") b (by decide))
  have hNo := fun (b : List Char) => (tags_append_left (bodyStyle (lookupD m.type)) b hl3)
  have hPo := fun (rest : List Char) => (tags_append_before_close (mdR m.body) rest)
  by_cases hbe : m.body.isEmpty
  · rw [renderCallout, buildCallout, if_pos hbe, calloutHead]
    simp only [List.append_assoc, List.nil_append, List.append_nil]
    rw [(hAo _).1, (hAo _).2, (hBo _).1, (hBo _).2, (hCo _).1, (hCo _).2,
      (hDo _).1, (hDo _).2, (hEo _).1, (hEo _).2, (hFo _).1, (hFo _).2,
      (hGo _).1, (hGo _).2, (hEo _).1, (hEo _).2, (hHo _).1, (hHo _).2,
      (hIo _).1, (hIo _).2, (hJo _).1, (hJo _).2, (hKo _).1, (hKo _).2,
      (hLo _).1, (hLo _).2]
    rw [htco, htcc, hc1o, hc1c, hc2o, hc2c, hc4o, hc4c]
    simp only [show openTags (str "<div class=\"callout callout-") = 1 by decide,
      show closeTags (str "<div class=\"callout callout-") = 0 by decide,
      show openTags (str "\" style=\"") = 0 by decide,
      show closeTags (str "\" style=\"") = 0 by decide,
      show openTags (str "\">") = 0 by decide,
      show closeTags (str "\">") = 0 by decide,
      show openTags (str "<div class=\"callout-title\" style=\"") = 1 by decide,
      show closeTags (str "<div class=\"callout-title\" style=\"") = 0 by decide,
      show openTags (str "<span class=\"callout-icon\">") = 1 by decide,
      show closeTags (str "<span class=\"callout-icon\">") = 0 by decide,
      show openTags (str "</span> ") = 0 by decide,
      show closeTags (str "</span> ") = 1 by decide,
      show openTags (str "</div>") = 0 by decide,
      show closeTags (str "</div>") = 1 by decide]
    omega
  · rw [renderCallout, buildCallout, if_neg hbe, calloutHead, calloutBodyDiv]
    simp only [List.append_assoc, List.nil_append, List.append_nil]
    rw [(hAo _).1, (hAo _).2, (hBo _).1, (hBo _).2, (hCo _).1, (hCo _).2,
      (hDo _).1, (hDo _).2, (hEo _).1, (hEo _).2, (hFo _).1, (hFo _).2,
      (hGo _).1, (hGo _).2, (hEo _).1, (hEo _).2, (hHo _).1, (hHo _).2,
      (hIo _).1, (hIo _).2, (hJo _).1, (hJo _).2, (hKo _).1, (hKo _).2,
      (hLo _).1, (hLo _).2, (hMo _).1, (hMo _).2, (hNo _).1, (hNo _).2,
      (hEo _).1, (hEo _).2, (hPo _).1, (hPo _).2, (hLo _).1, (hLo _).2]
    rw [htco, htcc, hc1o, hc1c, hc2o, hc2c, hc3o, hc3c, hc4o, hc4c]
    simp only [show openTags (str "<div class=\"callout callout-") = 1 by decide,
      show closeTags (str "<div class=\"callout callout-") = 0 by decide,
      show openTags (str "\" style=\"") = 0 by decide,
      show closeTags (str "\" style=\"") = 0 by decide,
      show openTags (str "\">") = 0 by decide,
      show closeTags (str "\">") = 0 by decide,
      show openTags (str "<div class=\"callout-title\" style=\"") = 1 by decide,
      show closeTags (str "<div class=\"callout-title\" style=\"") = 0 by decide,
      show openTags (str "<span class=\"callout-icon\">") = 1 by decide,
      show closeTags (str "<span class=\"callout-icon\">") = 0 by decide,
      show openTags (str "</span> ") = 0 by decide,
      show closeTags (str "</span> ") = 1 by decide,
      show openTags (str "<div class=\"callout-body\" style=\"") = 1 by decide,
      show closeTags (str "<div class=\"callout-body\" style=\"") = 0 by decide,
      show openTags (str "</div>") = 0 by decide,
      show closeTags (str "</div>") = 1 by decide]
    omega

/-- C7 witness: a concrete extracted callout rendered with a paragraph-style
body renderer has balanced tag counts. -/
theorem renderCallout_balanced_witness :
    openTags (renderCallout ⟨str ":::info T\nB\n:::", str "info", str "T", str "B"⟩
      (fun b => str "<p>" ++ b ++ str "</p>\n")) =
    closeTags (renderCallout ⟨str ":::info T\nB\n:::", str "info", str "T", str "B"⟩
      (fun b => str "<p>" ++ b ++ str "</p>\n")) :=
  renderCallout_balanced (str ":::info T\nB\n:::")
    ⟨str ":::info T\nB\n:::", str "info", str "T", str "B"⟩
    (fun b => str "<p>" ++ b ++ str "</p>\n") (by decide) (by decide) (by decide)

-- ---------------------------------------------------------------------------
-- Lowercasing facts
-- ---------------------------------------------------------------------------

theorem toNat_ofNatAux (n : Nat) (h : n.isValidChar) : (Char.ofNatAux n h).toNat = n := by
  simp [Char.ofNatAux, Char.toNat, UInt32.toNat]

theorem lowerChar_of_upper (c : Char) (h1 : 'A' ≤ c) (h2 : c ≤ 'Z') :
    (lowerChar c).toNat = c.toNat + 32 := by
  have h65 : c.toNat ≥ 65 := h1
  have h90 : c.toNat ≤ 90 := h2
  rw [lowerChar, if_pos (by simp [h1, h2])]
  simp only [Char.toLower]
  rw [if_pos ⟨h65, h90⟩]
  have hv : (c.toNat + 32).isValidChar := Or.inl (by omega)
  rw [Char.ofNat, dif_pos hv]
  exact toNat_ofNatAux _ hv

theorem lowerChar_of_not_upper (c : Char) (h : ¬('A' ≤ c ∧ c ≤ 'Z')) :
    lowerChar c = c := by
  rw [lowerChar, if_neg]
  simp only [Bool.and_eq_true, decide_eq_true_eq, not_and]
  intro h1 h2
  exact h ⟨h1, h2⟩

theorem lowerChar_idem (c : Char) : lowerChar (lowerChar c) = lowerChar c := by
  by_cases h : 'A' ≤ c ∧ c ≤ 'Z'
  · have hlo := lowerChar_of_upper c h.1 h.2
    have h65 : c.toNat ≥ 65 := h.1
    apply lowerChar_of_not_upper
    intro h2
    have hle : (lowerChar c).toNat ≤ 90 := h2.2
    omega
  · rw [lowerChar_of_not_upper c h, lowerChar_of_not_upper c h]

-- ---------------------------------------------------------------------------
-- Run collapsing facts
-- ---------------------------------------------------------------------------

theorem collapseRuns_cons (p : Char → Bool) (rep : Char) (b : Bool) (c : Char)
    (r : List Char) :
    collapseRuns p rep b (c :: r) =
      if p c then (if b then [] else [rep]) ++ collapseRuns p rep true r
      else c :: collapseRuns p rep false r := rfl

theorem collapseRuns_cons_pos_false (p : Char → Bool) (rep : Char) (c : Char)
    (r : List Char) (h : p c = true) :
    collapseRuns p rep false (c :: r) = rep :: collapseRuns p rep true r := by
  rw [collapseRuns_cons, if_pos h]
  rfl

theorem collapseRuns_cons_pos_true (p : Char → Bool) (rep : Char) (c : Char)
    (r : List Char) (h : p c = true) :
    collapseRuns p rep true (c :: r) = collapseRuns p rep true r := by
  rw [collapseRuns_cons, if_pos h]
  rfl

theorem collapseRuns_cons_neg (p : Char → Bool) (rep : Char) (b : Bool) (c : Char)
    (r : List Char) (h : p c = false) :
    collapseRuns p rep b (c :: r) = c :: collapseRuns p rep false r := by
  rw [collapseRuns_cons, if_neg (by simp [h])]

theorem collapseRuns_id_of_no_p (p : Char → Bool) (rep : Char) :
    ∀ l, (∀ c ∈ l, p c = false) → collapseRuns p rep false l = l := by
  intro l
  induction l with
  | nil => intro _; rfl
  | cons c r ih =>
    intro h
    rw [collapseRuns_cons_neg p rep false c r (h c (List.mem_cons_self c r))]
    rw [ih fun c hc => h c (List.mem_cons_of_mem _ hc)]

theorem mem_collapseRuns (p : Char → Bool) (rep : Char) :
    ∀ l b c, c ∈ collapseRuns p rep b l → c = rep ∨ (c ∈ l ∧ p c = false) := by
  intro l
  induction l with
  | nil => intro b c h; simp [collapseRuns] at h
  | cons a r ih =>
    intro b c h
    by_cases ha : p a = true
    · rw [collapseRuns_cons, if_pos ha] at h
      rcases List.mem_append.mp h with h | h
      · left
        cases b with
        | true => simp at h
        | false => simpa using h
      · rcases ih true c h with h | ⟨hm, hp⟩
        · exact Or.inl h
        · exact Or.inr ⟨List.mem_cons_of_mem _ hm, hp⟩
    · rw [collapseRuns_cons_neg p rep b a r (eq_false_of_ne_true ha)] at h
      rcases List.mem_cons.mp h with rfl | h
      · exact Or.inr ⟨List.mem_cons_self _ _, eq_false_of_ne_true ha⟩
      · rcases ih false c h with h | ⟨hm, hp⟩
        · exact Or.inl h
        · exact Or.inr ⟨List.mem_cons_of_mem _ hm, hp⟩

theorem collapse_hyphen_chain :
    ∀ l, List.Chain' noHH (collapseRuns (fun c => c = '-') '-' false l) ∧
      List.Chain' noHH (collapseRuns (fun c => c = '-') '-' true l) ∧
      ∀ c, (collapseRuns (fun c => c = '-') '-' true l).head? = some c → c ≠ '-' := by
  intro l
  induction l with
  | nil => exact ⟨List.chain'_nil, List.chain'_nil, fun c h => by cases h⟩
  | cons a r ih =>
    obtain ⟨ih1, ih2, ih3⟩ := ih
    by_cases ha : a = '-'
    · subst ha
      refine ⟨?_, ?_, ?_⟩
      · rw [collapseRuns_cons_pos_false _ _ _ _ (by simp)]
        refine List.chain'_cons'.mpr ⟨fun y hy => ?_, ih2⟩
        exact fun hc => (ih3 y hy) hc.2
      · rw [collapseRuns_cons_pos_true _ _ _ _ (by simp)]
        exact ih2
      · rw [collapseRuns_cons_pos_true _ _ _ _ (by simp)]
        exact ih3
    · refine ⟨?_, ?_, ?_⟩
      · rw [collapseRuns_cons_neg _ _ _ _ _ (by simp [ha])]
        exact List.chain'_cons'.mpr ⟨fun y _ => fun hc => ha hc.1, ih1⟩
      · rw [collapseRuns_cons_neg _ _ _ _ _ (by simp [ha])]
        exact List.chain'_cons'.mpr ⟨fun y _ => fun hc => ha hc.1, ih1⟩
      · rw [collapseRuns_cons_neg _ _ _ _ _ (by simp [ha])]
        intro c hc
        rw [List.head?_cons] at hc
        injection hc with hc
        exact fun he => ha (hc.trans he)

theorem collapse_true_eq_false_of_head (l : List Char)
    (h : ∀ c, l.head? = some c → c ≠ '-') :
    collapseRuns (fun c => c = '-') '-' true l =
      collapseRuns (fun c => c = '-') '-' false l := by
  cases l with
  | nil => rfl
  | cons a r =>
    have ha := h a rfl
    rw [collapseRuns_cons_neg _ _ _ _ _ (by simp [ha]),
      collapseRuns_cons_neg _ _ _ _ _ (by simp [ha])]

theorem collapse_hyphen_id :
    ∀ l, List.Chain' noHH l → collapseRuns (fun c => c = '-') '-' false l = l := by
  intro l
  induction l with
  | nil => intro _; rfl
  | cons a r ih =>
    intro hch
    obtain ⟨hhead, htail⟩ := List.chain'_cons'.mp hch
    by_cases ha : a = '-'
    · subst ha
      rw [collapseRuns_cons_pos_false _ _ _ _ (by simp)]
      rw [collapse_true_eq_false_of_head r
        (fun c hc hce => (hhead c hc) ⟨rfl, hce⟩), ih htail]
    · rw [collapseRuns_cons_neg _ _ _ _ _ (by simp [ha]), ih htail]

-- ---------------------------------------------------------------------------
-- Edge-hyphen stripping facts
-- ---------------------------------------------------------------------------

theorem stripLead_cons (c : Char) (r : List Char) :
    stripLeadHyphen (c :: r) = if c = '-' then r else c :: r := rfl

theorem stripLead_id (l : List Char) (h : ∀ c, l.head? = some c → c ≠ '-') :
    stripLeadHyphen l = l := by
  cases l with
  | nil => rfl
  | cons c r => rw [stripLead_cons, if_neg (h c rfl)]

theorem stripLead_chain (l : List Char) (hch : List.Chain' noHH l) :
    List.Chain' noHH (stripLeadHyphen l) := by
  cases l with
  | nil => exact List.chain'_nil
  | cons c r =>
    rw [stripLead_cons]
    by_cases hc : c = '-'
    · rw [if_pos hc]
      exact (List.chain'_cons'.mp hch).2
    · rw [if_neg hc]
      exact hch

theorem stripLead_head (l : List Char) (hch : List.Chain' noHH l) :
    ∀ c, (stripLeadHyphen l).head? = some c → c ≠ '-' := by
  cases l with
  | nil => intro c h; cases h
  | cons a r =>
    intro c h
    rw [stripLead_cons] at h
    by_cases ha : a = '-'
    · subst ha
      rw [if_pos rfl] at h
      exact fun hc => ((List.chain'_cons'.mp hch).1 c h) ⟨rfl, hc⟩
    · rw [if_neg ha, List.head?_cons] at h
      injection h with h
      exact fun he => ha (h.trans he)

theorem stripLead_getLast (l : List Char) (h : ∀ c, l.getLast? = some c → c ≠ '-') :
    ∀ c, (stripLeadHyphen l).getLast? = some c → c ≠ '-' := by
  cases l with
  | nil => intro c hc; cases hc
  | cons a r =>
    intro c hc
    rw [stripLead_cons] at hc
    by_cases ha : a = '-'
    · rw [if_pos ha] at hc
      cases r with
      | nil => cases hc
      | cons e t =>
        apply h
        rw [List.getLast?_cons_cons]
        exact hc
    · rw [if_neg ha] at hc
      exact h c hc

theorem mem_stripLead (l : List Char) (c : Char) (h : c ∈ stripLeadHyphen l) : c ∈ l := by
  cases l with
  | nil => exact h
  | cons a r =>
    rw [stripLead_cons] at h
    by_cases ha : a = '-'
    · rw [if_pos ha] at h
      exact List.mem_cons_of_mem _ h
    · rwa [if_neg ha] at h

theorem chain_noHH_reverse (l : List Char) (h : List.Chain' noHH l) :
    List.Chain' noHH l.reverse := by
  rw [List.chain'_reverse]
  exact h.imp fun a b hab => fun hc => hab ⟨hc.2, hc.1⟩

theorem stripEdge_facts (l : List Char) (hch : List.Chain' noHH l) :
    List.Chain' noHH (stripEdgeHyphens l) ∧
    (∀ c, (stripEdgeHyphens l).head? = some c → c ≠ '-') ∧
    (∀ c, (stripEdgeHyphens l).getLast? = some c → c ≠ '-') ∧
    (∀ c, c ∈ stripEdgeHyphens l → c ∈ l) := by
  have hcha : List.Chain' noHH (stripLeadHyphen l) := stripLead_chain l hch
  have hheada := stripLead_head l hch
  have hchar : List.Chain' noHH (stripLeadHyphen l).reverse := chain_noHH_reverse _ hcha
  have hchy : List.Chain' noHH (stripLeadHyphen (stripLeadHyphen l).reverse) :=
    stripLead_chain _ hchar
  have hheady := stripLead_head _ hchar
  have hlasty : ∀ c, (stripLeadHyphen (stripLeadHyphen l).reverse).getLast? = some c →
      c ≠ '-' := by
    apply stripLead_getLast
    intro c hc
    rw [List.getLast?_reverse] at hc
    exact hheada c hc
  refine ⟨?_, ?_, ?_, ?_⟩
  · exact chain_noHH_reverse _ hchy
  · intro c hc
    rw [stripEdgeHyphens, List.head?_reverse] at hc
    exact hlasty c hc
  · intro c hc
    rw [stripEdgeHyphens, List.getLast?_reverse] at hc
    exact hheady c hc
  · intro c hc
    rw [stripEdgeHyphens, List.mem_reverse] at hc
    have h2 := mem_stripLead _ c hc
    rw [List.mem_reverse] at h2
    exact mem_stripLead _ c h2

-- ---------------------------------------------------------------------------
-- C9: slugify is idempotent
-- ---------------------------------------------------------------------------

theorem map_fixed (f : Char → Char) :
    ∀ l : List Char, (∀ c ∈ l, f c = c) → l.map f = l := by
  intro l
  induction l with
  | nil => intro _; rfl
  | cons c r ih =>
    intro h
    rw [List.map_cons, h c (List.mem_cons_self c r),
      ih fun c hc => h c (List.mem_cons_of_mem _ hc)]

theorem slugify_output_fixed (s : List Char) :
    (∀ c ∈ slugify s, lowerChar c = c ∧
      (isWordChar c || isJsWS c || c = '-') = true ∧ isJsWS c = false) ∧
    List.Chain' noHH (slugify s) ∧
    (∀ c, (slugify s).head? = some c → c ≠ '-') ∧
    (∀ c, (slugify s).getLast? = some c → c ≠ '-') := by
  have hchainH := (collapse_hyphen_chain
    (collapseRuns isJsWS '-' false
      ((s.map lowerChar).filter fun c => isWordChar c || isJsWS c || c = '-'))).1
  obtain ⟨hse1, hse2, hse3, hse4⟩ := stripEdge_facts _ hchainH
  refine ⟨fun c hc => ?_, hse1, hse2, hse3⟩
  have hcH := hse4 c hc
  rcases mem_collapseRuns _ _ _ _ _ hcH with rfl | ⟨hcW, _⟩
  · exact ⟨by decide, by decide, by decide⟩
  · rcases mem_collapseRuns _ _ _ _ _ hcW with rfl | ⟨hcF, hnws⟩
    · exact ⟨by decide, by decide, by decide⟩
    · obtain ⟨hcM, hkeep⟩ := List.mem_filter.mp hcF
      obtain ⟨c0, _, hc0⟩ := List.mem_map.mp hcM
      refine ⟨?_, hkeep, hnws⟩
      rw [← hc0]
      exact lowerChar_idem c0

theorem slugify_id_of_fixed (l : List Char)
    (hfix : ∀ c ∈ l, lowerChar c = c ∧
      (isWordChar c || isJsWS c || c = '-') = true ∧ isJsWS c = false)
    (hch : List.Chain' noHH l)
    (hh : ∀ c, l.head? = some c → c ≠ '-')
    (hl : ∀ c, l.getLast? = some c → c ≠ '-') :
    slugify l = l := by
  have hmap : l.map lowerChar = l := map_fixed lowerChar l fun c hc => (hfix c hc).1
  have hfil : (l.map lowerChar).filter (fun c => isWordChar c || isJsWS c || c = '-') = l := by
    rw [hmap]
    exact List.filter_eq_self.mpr fun c hc => (hfix c hc).2.1
  have hws : collapseRuns isJsWS '-' false l = l :=
    collapseRuns_id_of_no_p isJsWS '-' l fun c hc => (hfix c hc).2.2
  have hhy : collapseRuns (fun c => c = '-') '-' false l = l := collapse_hyphen_id l hch
  have hstrip : stripEdgeHyphens l = l := by
    rw [stripEdgeHyphens, stripLead_id l hh, stripLead_id l.reverse ?_,
      List.reverse_reverse]
    intro c hc
    rw [List.head?_reverse] at hc
    exact hl c hc
  rw [slugify, hfil, hws, hhy, hstrip]

/-- C9.  `slugify` is idempotent: its output contains no whitespace, no run
of two or more hyphens, and neither starts nor ends with a hyphen, so a
second application returns the output unchanged. -/
theorem slugify_idempotent (x : List Char) : slugify (slugify x) = slugify x := by
  obtain ⟨hfix, hch, hh, hl⟩ := slugify_output_fixed x
  exact slugify_id_of_fixed (slugify x) hfix hch hh hl

-- ---------------------------------------------------------------------------
-- C2: code-fence suppression
-- ---------------------------------------------------------------------------

/-- C2 counterexample.  In the input
`:::info T\nB\n:::\n\x60\x60\x60\n:::info T\nB\n:::\n\x60\x60\x60\n` the second
callout occurrence starts at offset 20, at a line start strictly between the
fence lines, inside the single computed code-fence range — yet after
`processCallouts` the literal callout text occurs nowhere in the output and
the rendered `callout callout-info` container appears twice: the
first-occurrence substitution of the duplicated text converts the fenced
occurrence to HTML, contradicting the claim that such syntax is never
converted and remains verbatim. -/
theorem fenced_callout_converted_cex :
    prefixAt (str ":::info T\nB\n:::\n```\n:::info T\nB\n:::\n```\n") 20
      (str ":::info T\nB\n:::") = true ∧
    isLineStart (str ":::info T\nB\n:::\n```\n:::info T\nB\n:::\n```\n") 20 = true ∧
    isInCodeBlock
      (findCodeFenceRanges (str ":::info T\nB\n:::\n```\n:::info T\nB\n:::\n```\n"))
      20 = true ∧
    countOccur (str ":::info T\nB\n:::")
      (processCallouts (fun b => str "<p>" ++ b ++ str "</p>\n")
        (str ":::info T\nB\n:::\n```\n:::info T\nB\n:::\n```\n")) = 0 ∧
    countOccur (str "callout callout-info")
      (processCallouts (fun b => str "<p>" ++ b ++ str "</p>\n")
        (str ":::info T\nB\n:::\n```\n:::info T\nB\n:::\n```\n")) = 2 := by
  refine ⟨by decide, by decide, by decide, by decide, by decide⟩

/-- C2 (amended).  Any extracted match whose fullText start offset — located
by first-occurrence search in the original text — falls inside a computed
code-fence range is discarded: it is excluded from the list of callouts that
`processCallouts` substitutes, so that match itself is never rendered. -/
theorem fenced_callout_discarded (s : List Char) (c : CalloutMatch)
    (idx : Nat) (hidx : indexOf s c.fullMatch = some idx)
    (hin : isInCodeBlock (findCodeFenceRanges s) idx = true) :
    c ∉ calloutsToProcess s := by
  intro hmem
  rw [calloutsToProcess, List.mem_filter] at hmem
  obtain ⟨_, hfilter⟩ := hmem
  simp only [hidx, hin] at hfilter
  cases hfilter

/-- C2 witness: a callout inside a fenced block is discarded from the
substitution list. -/
theorem fenced_callout_discarded_witness :
    (⟨str ":::info fake\nx\n:::", str "info", str "fake", str "x"⟩ : CalloutMatch) ∉
      calloutsToProcess (str "```\n:::info fake\nx\n:::\n```\nafter") :=
  fenced_callout_discarded (str "```\n:::info fake\nx\n:::\n```\nafter")
    ⟨str ":::info fake\nx\n:::", str "info", str "fake", str "x"⟩
    4 (by decide) (by decide)

end PdfReporter
